import Mathlib

/-!
# Verification of the gachix content-addressed package cache

Shallow embedding of the core subsystems of the repository:

* the NAR archive codec over git objects (`src/nar/decode.rs`, `src/nar/encode.rs`),
* the streaming archive producer (`src/nar/encode_stream.rs`),
* the package path parser (`src/nix_interface/path.rs`),
* the narinfo metadata record (`src/nix_interface/nar_info.rs`),
* the store layer and closure ingestion engine (`src/git_store/store.rs`,
  `src/git_store/repository.rs`).

Bytes are modelled as natural numbers, byte strings as `List Nat`, Rust
strings as `String`/`List Char`.  Machine integers (`u64` lengths) are `Nat`
with explicit `% 2 ^ 64` where the source reads them back from 8-byte
little-endian prefixes.  Fallible Rust code (`Result`) becomes `Except`.
-/

namespace Gachix

/-! ## Byte-level framing (src/nar/mod.rs, encode.rs `write_padded`,
encode_stream.rs `write_padded_bytes`, decode.rs padding checks) -/


/-- `PAD_LEN` from `src/nar/mod.rs`. -/
def PAD_LEN : Nat := 8

/-- Number of zero padding bytes after a payload of length `n`:
`if n % 8 > 0 then 8 - n % 8 else 0` as in `write_padded`. -/
def padLenOf (n : Nat) : Nat :=
  if n % PAD_LEN > 0 then PAD_LEN - n % PAD_LEN else 0

/-- Little-endian byte encoding of `n` in `k` bytes (`u64::to_le_bytes` with
`k = 8`). -/
def toLE : Nat → Nat → List Nat
  | 0, _ => []
  | k + 1, n => n % 256 :: toLE k (n / 256)

/-- Little-endian read-back of a byte list (`u64::from_le_bytes`). -/
def fromLE : List Nat → Nat
  | [] => 0
  | b :: bs => b % 256 + 256 * fromLE bs

/-- One length-framed record: 8-byte little-endian length, payload, zero
padding to a multiple of 8.  This is `write_padded` (encode.rs) and
`write_padded_bytes` (encode_stream.rs). -/
def frame (payload : List Nat) : List Nat :=
  toLE 8 payload.length ++ payload ++ List.replicate (padLenOf payload.length) 0

/-- ASCII/UTF-8 bytes of a string literal (tags, magic header). -/
def bytes (s : String) : List Nat := s.toList.map Char.toNat

/-- The magic header `nix-archive-1` (`NIX_VERSION_MAGIC`). -/
def magic : List Nat := bytes "nix-archive-1"

/-! ## Byte-wise lexicographic order (Rust `Ord` on `&[u8]` / `&str`),
used by `sort_by` in both encoders -/


/-- `a < b` in the lexicographic order on byte lists, as compared by Rust's
`Ord::cmp` for `Vec<u8>` and (byte-wise, equivalently) `&str`. -/
def lexLt : List Nat → List Nat → Bool
  | _, [] => false
  | [], _ :: _ => true
  | a :: as, b :: bs => decide (a < b) || (a == b && lexLt as bs)

/-! ## UTF-8 validity (Rust `String::from_utf8` / `str` accessors) -/


/-- Whether a byte sequence is valid UTF-8, as accepted by Rust's
`String::from_utf8` (used by the decoder's `read_utf8_padded` and the sync
encoder's `entry.name().unwrap()`). -/
def utf8Valid : List Nat → Bool
  | [] => true
  | c :: rest =>
    if c < 0x80 then utf8Valid rest
    else if c < 0xC2 then false
    else if c ≤ 0xDF then
      match rest with
      | c1 :: rest' => 0x80 ≤ c1 && c1 ≤ 0xBF && utf8Valid rest'
      | [] => false
    else if c ≤ 0xEF then
      match rest with
      | c1 :: c2 :: rest' =>
          (if c = 0xE0 then 0xA0 ≤ c1 && c1 ≤ 0xBF
           else if c = 0xED then 0x80 ≤ c1 && c1 ≤ 0x9F
           else 0x80 ≤ c1 && c1 ≤ 0xBF) &&
          (0x80 ≤ c2 && c2 ≤ 0xBF) && utf8Valid rest'
      | _ => false
    else if c ≤ 0xF4 then
      match rest with
      | c1 :: c2 :: c3 :: rest' =>
          (if c = 0xF0 then 0x90 ≤ c1 && c1 ≤ 0xBF
           else if c = 0xF4 then 0x80 ≤ c1 && c1 ≤ 0x8F
           else 0x80 ≤ c1 && c1 ≤ 0xBF) &&
          (0x80 ≤ c2 && c2 ≤ 0xBF) && (0x80 ≤ c3 && c3 ≤ 0xBF) && utf8Valid rest'
      | _ => false
    else false

/-! ## Git object model

The reachable (blob, tree) object graph of the repository, materialized as
an inductive value: git objects are immutable and hash-linked, hence
acyclic, so the subgraph below one root is a finite tree.  An entry of a
tree is `(name bytes, filemode, child object)`; looking a child up by oid
always yields the same object, which the embedding realizes by storing the
child in place.  Git object kinds other than blob and tree (commits, tags)
cannot occur below a tree root and are not represented; both encoders
reject them. -/


/-- `git2::FileMode::Blob` (0o100644). -/
def modeBlob : Nat := 33188

/-- `git2::FileMode::BlobExecutable` (0o100755). -/
def modeBlobExecutable : Nat := 33261

/-- `git2::FileMode::Link` (0o120000). -/
def modeLink : Nat := 40960

/-- `git2::FileMode::Tree` (0o040000). -/
def modeTree : Nat := 16384

inductive GitObj : Type where
  | blob (content : List Nat)
  | tree (entries : List (List Nat × Nat × GitObj))

abbrev Ent : Type := List Nat × Nat × GitObj

/-- The name a tree entry is sorted by in plain byte order (both encoders'
`sort_by` key). -/
def plainKey (e : Ent) : List Nat := e.1

/-- The canonical git tree-storage sort key: the entry name, with `/`
appended for subtree entries (libgit2 `git_treebuilder_write` ordering). -/
def gitKey (e : Ent) : List Nat := e.1 ++ (if e.2.1 = modeTree then [47] else [])

/-- `a ≤ b` on entries, comparing by a byte-list key. -/
def keyLe (key : Ent → List Nat) (a b : Ent) : Prop := lexLt (key b) (key a) = false

instance (key : Ent → List Nat) : DecidableRel (keyLe key) := fun _ _ =>
  inferInstanceAs (Decidable (_ = false))

/-- Stable sort of tree entries by a byte-list key (`sort_by` in encode.rs
and encode_stream.rs uses the plain name; the treebuilder uses the
canonical key). -/
def sortByKey (key : Ent → List Nat) (l : List Ent) : List Ent :=
  List.insertionSort (keyLe key) l

/-! ## Synchronous NAR encoder (`NarGitEncoder`, src/nar/encode.rs)

The Rust encoder recurses through the entries of each tree after sorting
them; the sorted list is a permutation rather than a structural subterm, so
the embedding threads an explicit fuel parameter (structurally recursive
and hence kernel-computable).  `nodeFuel`/`entsFuel` below compute a
sufficient fuel, and the equation lemmas `encodeNode_tree` and
`encodeEntries_cons` recover exactly the source's recursion equations, so
the fuel is semantically invisible. -/


mutual

/-- Fuel sufficient to encode (or decode the encoding of) one node. -/
def nodeFuel : GitObj → Nat
  | GitObj.blob _ => 1
  | GitObj.tree es => 1 + entsFuel es

/-- Fuel sufficient to encode (or decode the encoding of) an entry list. -/
def entsFuel : List Ent → Nat
  | [] => 1
  | (_, _, child) :: rest => 1 + nodeFuel child + entsFuel rest

end

mutual

/-- `NarGitEncoder::_encode_into` (encode.rs lines 34-90): one node.  The
object kind is dispatched on first; for trees the given filemode is not
consulted, for blobs the filemode selects regular/executable/symlink and
anything else is a fatal error. -/
def encodeNodeF : Nat → GitObj → Nat → Except String (List Nat)
  | 0, _, _ => .error "out of fuel"
  | f + 1, GitObj.tree entries, _ =>
      (encodeEntriesF f (sortByKey plainKey entries)).map
        (fun es => frame (bytes "(") ++ frame (bytes "type") ++
          frame (bytes "directory") ++ es ++ frame (bytes ")"))
  | _ + 1, GitObj.blob content, mode =>
      if mode = modeBlobExecutable then
        .ok (frame (bytes "(") ++ frame (bytes "type") ++
          frame (bytes "regular") ++ frame (bytes "executable") ++ frame [] ++
          frame (bytes "contents") ++ frame content ++ frame (bytes ")"))
      else if mode = modeBlob then
        .ok (frame (bytes "(") ++ frame (bytes "type") ++
          frame (bytes "regular") ++ frame (bytes "contents") ++
          frame content ++ frame (bytes ")"))
      else if mode = modeLink then
        .ok (frame (bytes "(") ++ frame (bytes "type") ++
          frame (bytes "symlink") ++ frame (bytes "target") ++
          frame content ++ frame (bytes ")"))
      else .error "Unsupported blob filemode"

/-- The entry loop of `_encode_into` over the (already sorted) entries of a
tree.  `entry.name().unwrap()` requires the name to be valid UTF-8 (a
panic, modelled as an error). -/
def encodeEntriesF : Nat → List Ent → Except String (List Nat)
  | 0, _ => .error "out of fuel"
  | _ + 1, [] => .ok []
  | f + 1, (name, mode, child) :: rest =>
      if utf8Valid name then
        match encodeNodeF f child mode with
        | .error e => .error e
        | .ok c =>
            match encodeEntriesF f rest with
            | .error e => .error e
            | .ok r =>
                .ok (frame (bytes "entry") ++ frame (bytes "(") ++
                  frame (bytes "name") ++ frame name ++ frame (bytes "node") ++
                  c ++ frame (bytes ")") ++ r)
      else .error "non-UTF-8 entry name"

end

/-- One node of `_encode_into`, with its canonical fuel. -/
def encodeNode (obj : GitObj) (mode : Nat) : Except String (List Nat) :=
  encodeNodeF (nodeFuel obj) obj mode

/-- The entry loop of `_encode_into`, with its canonical fuel. -/
def encodeEntries (l : List Ent) : Except String (List Nat) :=
  encodeEntriesF (entsFuel l) l

/-- `NarGitEncoder::encode_into` (encode.rs lines 28-32): magic header,
then the root node. -/
def encodeArchive (obj : GitObj) (mode : Nat) : Except String (List Nat) :=
  (encodeNode obj mode).map (fun b => frame magic ++ b)

/-! ## NAR decoder (`NarGitDecoder`, src/nar/decode.rs) -/


/-- `read_bytes_padded` (decode.rs lines 137-156): 8-byte little-endian
length, payload, padding bytes which must be zero.  `read_exact` fails on
a truncated stream. -/
def readPadded (input : List Nat) : Except String (List Nat × List Nat) :=
  if 8 ≤ input.length then
    let len := fromLE (input.take 8)
    let rest := input.drop 8
    if len ≤ rest.length then
      let payload := rest.take len
      let rest2 := rest.drop len
      let pl := padLenOf len
      if pl ≤ rest2.length then
        if (rest2.take pl).all (· = 0) then .ok (payload, rest2.drop pl)
        else .error "Bad archive padding"
      else .error "failed to fill whole buffer"
    else .error "failed to fill whole buffer"
  else .error "failed to fill whole buffer"

/-- `read_expect` (decode.rs lines 86-130): a length-framed record whose
payload must equal `expected`. -/
def readExpect (expected : List Nat) (input : List Nat) :
    Except String (List Nat) :=
  match readPadded input with
  | .error e => .error e
  | .ok (payload, rest) =>
      if payload = expected then .ok rest else .error "unexpected tag"

/-- `read_utf8_padded` (decode.rs lines 132-135): a record whose payload
must be valid UTF-8. -/
def readUtf8Padded (input : List Nat) : Except String (List Nat × List Nat) :=
  match readPadded input with
  | .error e => .error e
  | .ok (payload, rest) =>
      if utf8Valid payload then .ok (payload, rest)
      else .error "invalid utf-8 sequence"

/-- libgit2 `git_treebuilder_insert` filename validation: rejects the empty
name, `.`, `..`, `.git` and names containing `/` or NUL. -/
def validEntryName (name : List Nat) : Bool :=
  name ≠ [] && name ≠ bytes "." && name ≠ bytes ".." && name ≠ bytes ".git" &&
    !(decide (47 ∈ name)) && !(decide (0 ∈ name))

/-- Treebuilder map semantics: repeated `insert` keeps, for each filename,
the last entry inserted. -/
def dedupLast : List Ent → List Ent
  | [] => []
  | e :: rest =>
      if rest.any (fun x => x.1 = e.1) then dedupLast rest
      else e :: dedupLast rest

/-- `tree_builder.write()`: the entries, deduplicated by name (last insert
wins) and stored in canonical git order. -/
def treeWrite (l : List Ent) : List Ent := sortByKey gitKey (dedupLast l)

mutual

/-- `NarGitDecoder::recursive_parse` (decode.rs lines 21-84), with an
explicit fuel parameter standing in for Rust's unbounded recursion (every
recursive call consumes at least 8 bytes of input, so any fuel of at least
`input.length + 1` behaves like the original).  Returns the decoded object,
its filemode, and the unconsumed remainder of the stream. -/
def decodeNodeF : Nat → List Nat → Except String (GitObj × Nat × List Nat)
  | 0, _ => .error "out of fuel"
  | f + 1, input =>
    readExpect (bytes "(") input >>= fun r1 =>
    readExpect (bytes "type") r1 >>= fun r2 =>
    readUtf8Padded r2 >>= fun ftr =>
    if ftr.1 = bytes "regular" then
      readUtf8Padded ftr.2 >>= fun tr =>
      (if tr.1 = bytes "executable" then
        readExpect [] tr.2 >>= fun r5 =>
        readExpect (bytes "contents") r5 >>= fun r6 =>
        Except.ok (modeBlobExecutable, r6)
      else if tr.1 = bytes "contents" then Except.ok (modeBlob, tr.2)
      else Except.error "Expected executable or contents") >>= fun mr =>
      readPadded mr.2 >>= fun dr =>
      readExpect (bytes ")") dr.2 >>= fun r8 =>
      Except.ok (GitObj.blob dr.1, mr.1, r8)
    else if ftr.1 = bytes "symlink" then
      readExpect (bytes "target") ftr.2 >>= fun r4 =>
      readPadded r4 >>= fun tr5 =>
      readExpect (bytes ")") tr5.2 >>= fun r6 =>
      Except.ok (GitObj.blob tr5.1, modeLink, r6)
    else if ftr.1 = bytes "directory" then
      decodeEntriesF f ftr.2 >>= fun er =>
      if er.1.all (fun e => validEntryName e.1) then
        Except.ok (GitObj.tree (treeWrite er.1), modeTree, er.2)
      else Except.error "failed to insert entry"
    else Except.error "Unrecognized file type"

/-- The `directory` entry loop of `recursive_parse` (decode.rs lines
58-73): reads `entry` blocks until the closing `)`. -/
def decodeEntriesF : Nat → List Nat → Except String (List Ent × List Nat)
  | 0, _ => .error "out of fuel"
  | f + 1, input =>
    readUtf8Padded input >>= fun tg =>
    if tg.1 = bytes "entry" then
      readExpect (bytes "(") tg.2 >>= fun r2 =>
      readExpect (bytes "name") r2 >>= fun r3 =>
      readUtf8Padded r3 >>= fun nr =>
      readExpect (bytes "node") nr.2 >>= fun r5 =>
      decodeNodeF f r5 >>= fun cm =>
      readExpect (bytes ")") cm.2.2 >>= fun r7 =>
      decodeEntriesF f r7 >>= fun rr =>
      Except.ok ((nr.1, cm.2.1, cm.1) :: rr.1, rr.2)
    else if tg.1 = bytes ")" then Except.ok ([], tg.2)
    else Except.error "Incorrect directory field"

end

/-- `NarGitDecoder::parse` (decode.rs lines 16-19): expect the magic
header, then parse one node.  The fuel `input.length + 1` is always enough
because each recursive call consumes at least 8 bytes. -/
def parseNar (input : List Nat) : Except String (GitObj × Nat × List Nat) :=
  readExpect magic input >>= fun r => decodeNodeF (input.length + 1) r

/-! ## Well-formed stored objects -/


/-- Consistency of a filemode with the kind of the object it annotates, as
maintained by the store (trees are stored with tree mode, blobs with one of
the three blob modes). -/
def modeOk : Nat → GitObj → Prop
  | mode, GitObj.tree _ => mode = modeTree
  | mode, GitObj.blob _ =>
      mode = modeBlob ∨ mode = modeBlobExecutable ∨ mode = modeLink

/-- Well-formedness of a stored git object: trees hold their entries in
strict canonical git order (as `git_treebuilder_write` produces them), with
valid UTF-8, treebuilder-acceptable names, and consistent filemodes; all
byte strings fit the 64-bit length prefix. -/
inductive WFNode : GitObj → Prop where
  | blob {content : List Nat} (hlen : content.length < 2 ^ 64) :
      WFNode (GitObj.blob content)
  | tree {entries : List Ent}
      (hsorted : entries.Pairwise (fun a b => lexLt (gitKey a) (gitKey b) = true))
      (hnames : entries.Pairwise (fun a b => a.1 ≠ b.1))
      (hents : ∀ e ∈ entries, utf8Valid e.1 = true ∧ validEntryName e.1 = true ∧
        e.1.length < 2 ^ 64 ∧ modeOk e.2.1 e.2.2)
      (hrec : ∀ e ∈ entries, WFNode e.2.2) :
      WFNode (GitObj.tree entries)

/-- An admissible archive byte stream: one produced by the encoder from a
well-formed stored root with a matching supported filemode.  This captures
the format's admissibility conditions (grammar, zero padding, UTF-8 names,
strictly sorted directory entries). -/
def Admissible (bs : List Nat) : Prop :=
  ∃ (obj : GitObj) (mode : Nat), WFNode obj ∧ modeOk mode obj ∧
    encodeArchive obj mode = .ok bs

/-- A concrete stored root for the codec witnesses: a directory containing
an executable file `a` and a subdirectory `d` holding a symlink `s`. -/
def c1exObj : GitObj :=
  GitObj.tree [(bytes "a", modeBlobExecutable, GitObj.blob (bytes "x")),
               (bytes "d", modeTree,
                 GitObj.tree [(bytes "s", modeLink, GitObj.blob (bytes "t"))])]

/-- The archive bytes of `c1exObj`. -/
def c1exBytes : List Nat :=
 [13, 0, 0, 0, 0, 0, 0, 0, 110, 105, 120, 45, 97, 114, 99, 104, 105, 118,
  101, 45, 49, 0, 0, 0, 1, 0, 0, 0, 0, 0, 0, 0, 40, 0, 0, 0, 0, 0, 0, 0, 4,
  0, 0, 0, 0, 0, 0, 0, 116, 121, 112, 101, 0, 0, 0, 0, 9, 0, 0, 0, 0, 0, 0,
  0, 100, 105, 114, 101, 99, 116, 111, 114, 121, 0, 0, 0, 0, 0, 0, 0, 5, 0,
  0, 0, 0, 0, 0, 0, 101, 110, 116, 114, 121, 0, 0, 0, 1, 0, 0, 0, 0, 0, 0,
  0, 40, 0, 0, 0, 0, 0, 0, 0, 4, 0, 0, 0, 0, 0, 0, 0, 110, 97, 109, 101, 0,
  0, 0, 0, 1, 0, 0, 0, 0, 0, 0, 0, 97, 0, 0, 0, 0, 0, 0, 0, 4, 0, 0, 0, 0,
  0, 0, 0, 110, 111, 100, 101, 0, 0, 0, 0, 1, 0, 0, 0, 0, 0, 0, 0, 40, 0,
  0, 0, 0, 0, 0, 0, 4, 0, 0, 0, 0, 0, 0, 0, 116, 121, 112, 101, 0, 0, 0, 0,
  7, 0, 0, 0, 0, 0, 0, 0, 114, 101, 103, 117, 108, 97, 114, 0, 10, 0, 0, 0,
  0, 0, 0, 0, 101, 120, 101, 99, 117, 116, 97, 98, 108, 101, 0, 0, 0, 0, 0,
  0, 0, 0, 0, 0, 0, 0, 0, 0, 8, 0, 0, 0, 0, 0, 0, 0, 99, 111, 110, 116,
  101, 110, 116, 115, 1, 0, 0, 0, 0, 0, 0, 0, 120, 0, 0, 0, 0, 0, 0, 0, 1,
  0, 0, 0, 0, 0, 0, 0, 41, 0, 0, 0, 0, 0, 0, 0, 1, 0, 0, 0, 0, 0, 0, 0, 41,
  0, 0, 0, 0, 0, 0, 0, 5, 0, 0, 0, 0, 0, 0, 0, 101, 110, 116, 114, 121, 0,
  0, 0, 1, 0, 0, 0, 0, 0, 0, 0, 40, 0, 0, 0, 0, 0, 0, 0, 4, 0, 0, 0, 0, 0,
  0, 0, 110, 97, 109, 101, 0, 0, 0, 0, 1, 0, 0, 0, 0, 0, 0, 0, 100, 0, 0,
  0, 0, 0, 0, 0, 4, 0, 0, 0, 0, 0, 0, 0, 110, 111, 100, 101, 0, 0, 0, 0, 1,
  0, 0, 0, 0, 0, 0, 0, 40, 0, 0, 0, 0, 0, 0, 0, 4, 0, 0, 0, 0, 0, 0, 0,
  116, 121, 112, 101, 0, 0, 0, 0, 9, 0, 0, 0, 0, 0, 0, 0, 100, 105, 114,
  101, 99, 116, 111, 114, 121, 0, 0, 0, 0, 0, 0, 0, 5, 0, 0, 0, 0, 0, 0, 0,
  101, 110, 116, 114, 121, 0, 0, 0, 1, 0, 0, 0, 0, 0, 0, 0, 40, 0, 0, 0, 0,
  0, 0, 0, 4, 0, 0, 0, 0, 0, 0, 0, 110, 97, 109, 101, 0, 0, 0, 0, 1, 0, 0,
  0, 0, 0, 0, 0, 115, 0, 0, 0, 0, 0, 0, 0, 4, 0, 0, 0, 0, 0, 0, 0, 110,
  111, 100, 101, 0, 0, 0, 0, 1, 0, 0, 0, 0, 0, 0, 0, 40, 0, 0, 0, 0, 0, 0,
  0, 4, 0, 0, 0, 0, 0, 0, 0, 116, 121, 112, 101, 0, 0, 0, 0, 7, 0, 0, 0, 0,
  0, 0, 0, 115, 121, 109, 108, 105, 110, 107, 0, 6, 0, 0, 0, 0, 0, 0, 0,
  116, 97, 114, 103, 101, 116, 0, 0, 1, 0, 0, 0, 0, 0, 0, 0, 116, 0, 0, 0,
  0, 0, 0, 0, 1, 0, 0, 0, 0, 0, 0, 0, 41, 0, 0, 0, 0, 0, 0, 0, 1, 0, 0, 0,
  0, 0, 0, 0, 41, 0, 0, 0, 0, 0, 0, 0, 1, 0, 0, 0, 0, 0, 0, 0, 41, 0, 0, 0,
  0, 0, 0, 0, 1, 0, 0, 0, 0, 0, 0, 0, 41, 0, 0, 0, 0, 0, 0, 0, 1, 0, 0, 0,
  0, 0, 0, 0, 41, 0, 0, 0, 0, 0, 0, 0]

/-! ## Streaming archive producer (`NarGitStream`, src/nar/encode_stream.rs)

The traversal stack of `poll_next`.  In the source a `StartNode` holds an
oid and a filemode and the object is looked up per poll with the kind
derived from the filemode (`find_object(oid, Some(kind))` fails when the
stored object's kind differs); the embedding stores the object in place
and models the kind check explicitly.  The Rust `Vec` stack pops from its
end; the model's list stack pops from the head, so pushes appear here in
top-first order. -/


inductive TState : Type where
  | startNode (obj : GitObj) (mode : Nat)
  | processEntries (rest : List Ent)
  | finishTreeEntry
  | finishNode

/-- One state transition of `NarGitStream::poll_next` (encode_stream.rs
lines 86-230): the chunks pushed to `pending_chunks` and the states pushed
onto the stack.  Errors are the `find_object` failure and the unsupported
blob filemode. -/
def stepStream : TState → Except String (List (List Nat) × List TState)
  | TState.startNode obj mode =>
      if mode = modeTree then
        match obj with
        | GitObj.tree entries =>
            .ok ([frame (bytes "("), frame (bytes "type"),
                  frame (bytes "directory")],
              [TState.processEntries (sortByKey plainKey entries)])
        | GitObj.blob _ => .error "Could not find object"
      else
        match obj with
        | GitObj.blob content =>
            if mode = modeBlobExecutable then
              .ok ([frame (bytes "("), frame (bytes "type"),
                    frame (bytes "regular"), frame (bytes "executable"),
                    frame [], frame (bytes "contents"), frame content], [])
            else if mode = modeBlob then
              .ok ([frame (bytes "("), frame (bytes "type"),
                    frame (bytes "regular"), frame (bytes "contents"),
                    frame content], [])
            else if mode = modeLink then
              .ok ([frame (bytes "("), frame (bytes "type"),
                    frame (bytes "symlink"), frame (bytes "target"),
                    frame content], [])
            else .error "Unsupported blob filemode"
        | GitObj.tree _ => .error "Could not find object"
  | TState.processEntries [] => .ok ([], [])
  | TState.processEntries ((name, mode, child) :: rest) =>
      .ok ([frame (bytes "entry"), frame (bytes "("), frame (bytes "name"),
            frame name, frame (bytes "node")],
        [TState.startNode child mode, TState.finishNode,
         TState.finishTreeEntry, TState.processEntries rest])
  | TState.finishTreeEntry => .ok ([frame (bytes ")")], [])
  | TState.finishNode => .ok ([frame (bytes ")")], [])

/-- The `poll_next` loop driven to completion: drain the chunk queue, pop
a state, enqueue its chunks and push its successor states, until the stack
is empty.  The fuel stands in for the unbounded polling loop. -/
def runMachine : Nat → List TState → Except String (List (List Nat))
  | 0, _ => .error "out of fuel"
  | _ + 1, [] => .ok []
  | f + 1, s :: stack =>
      stepStream s >>= fun cp =>
      runMachine f (cp.2 ++ stack) >>= fun rest =>
      .ok (cp.1 ++ rest)

/-- `NarGitStream::new` (initial magic chunk, stack `[FinishNode,
StartNode(root)]` with `StartNode` on top) polled to completion: the full
chunk sequence of the stream. -/
def runStream (fuel : Nat) (obj : GitObj) (mode : Nat) :
    Except String (List (List Nat)) :=
  (runMachine fuel [TState.startNode obj mode, TState.finishNode]).map
    (fun cs => frame magic :: cs)

/-- The chunk sequence produced by streaming `c1exObj`. -/
def c2chunks : List (List Nat) :=
  (runStream 64 c1exObj modeTree).toOption.getD []

/-- A concrete blob root and its stream chunks, for the C10 witness. -/
def c10chunks : List (List Nat) :=
  (runStream 8 (GitObj.blob (bytes "hi")) modeBlob).toOption.getD []

/-! ## Package path parser (`NixPath`, src/nix_interface/path.rs)

Rust strings become `List Char`.  `str::len` counts UTF-8 bytes where the
model counts characters; the two agree on ASCII, which covers the base-32
hash alphabet the spec describes. -/


structure NixPath where
  path : List Char
  hash : List Char
  name : List Char
deriving DecidableEq

/-- Rust `str::trim`: strip whitespace from both ends. -/
def trimChars (s : List Char) : List Char :=
  ((s.dropWhile Char.isWhitespace).reverse.dropWhile Char.isWhitespace).reverse

/-- Split at every occurrence of `c` (`[""]` for the empty string).  The
result is always nonempty, so `headI`/`tail` never hit the default. -/
def splitOnChar (c : Char) : List Char → List (List Char)
  | [] => [[]]
  | x :: xs =>
      let r := splitOnChar c xs
      if x = c then [] :: r else (x :: r.headI) :: r.tail

/-- Rust `str::split_once`: split at the first occurrence of `c`. -/
def splitOnceChar (c : Char) : List Char → Option (List Char × List Char)
  | [] => none
  | x :: xs =>
      if x = c then some ([], xs)
      else (splitOnceChar c xs).map (fun p => (x :: p.1, p.2))

/-- Rust `Path::file_name`: the last normal component — empty segments and
`.` are dropped, a trailing `..` yields `None`. -/
def fileName (p : List Char) : Option (List Char) :=
  let parts := (splitOnChar '/' p).filter
    (fun s => decide (s ≠ []) && decide (s ≠ ['.']))
  match parts.getLast? with
  | none => none
  | some l => if l = ['.', '.'] then none else some l

/-- `NixPath::new` (path.rs lines 12-42): trim the full path, take the
trailing component of the untrimmed path, split it at the first `-`, and
require the portion before it to have length exactly 32.  No check of the
hash's alphabet is performed. -/
def nixPathNew (pathLike : List Char) : Except String NixPath :=
  let fullPath := trimChars pathLike
  match fileName pathLike with
  | none => .error "Nix path has no file name component"
  | some stem =>
      match splitOnceChar '-' stem with
      | none => .error "Invalid nix path format (missing hash-name separator)"
      | some (hash, nm) =>
          if hash.length = 32 then .ok ⟨fullPath, hash, nm⟩
          else .error "Invalid nix hash in nix path"

/-- The restricted base-32 alphabet of nix store path hashes (digits and
lowercase letters without `e`, `o`, `u`, `t`), which the spec says the
parser enforces. -/
def nixBase32Chars : List Char := "0123456789abcdfghijklmnpqrsvwxyz".toList

/-- A path whose hash portion is 32 characters long but entirely outside
the base-32 alphabet. -/
def c8badInput : List Char :=
  "/nix/store/AAAAAAAAAAAAAAAAAAAAAAAAAAAAAAAA-foo".toList

/-- What the parser returns on `c8badInput`. -/
def c8badParsed : NixPath := (nixPathNew c8badInput).toOption.getD ⟨[], [], []⟩

/-- A well-formed store path for the C8 witness. -/
def c8goodInput : List Char :=
  "/nix/store/iylhaki6573cpsvspivjfsim700n46r3-kitty-0.43.1".toList

/-! ## Metadata records (`NarInfo`, src/nix_interface/nar_info.rs) -/


structure NarInfo where
  store_path : NixPath
  key : List Char
  url : Option (List Char)
  compression_type : Option (List Char)
  file_hash : List Char
  file_size : Nat
  nar_hash : List Char
  nar_size : Nat
  references : List NixPath
  deriver : Option NixPath
  signature : Option (List Char)
deriving DecidableEq

/-- `u64::to_string`: decimal digits. -/
def natToDec (n : Nat) : List Char := Nat.toDigits 10 n

/-- `format!("{}-{}", p.get_base_32_hash(), p.get_name())`. -/
def stem (p : NixPath) : List Char := p.hash ++ '-' :: p.name

/-- The `KEYS` constant of nar_info.rs. -/
def KEYS : List (List Char) :=
  ["StorePath", "URL", "Compression", "FileHash", "FileSize", "NarHash",
   "NarSize", "References", "Deriver", "Sig"].map String.toList

/-- The `values` array built by `NarInfo::fmt` (nar_info.rs lines 142-169):
reference stems joined by a single space, absent deriver and signature as
empty strings, absent compression as `"none"`, absent url as
`nar/{key}.nar`. -/
def narInfoValues (n : NarInfo) : List (List Char) :=
  [ n.store_path.path,
    n.url.getD ("nar/".toList ++ n.key ++ ".nar".toList),
    n.compression_type.getD "none".toList,
    n.file_hash,
    natToDec n.file_size,
    n.nar_hash,
    natToDec n.nar_size,
    List.intercalate [' '] (n.references.map stem),
    (match n.deriver with | some d => stem d | none => []),
    n.signature.getD [] ]

/-- The loop of `NarInfo::fmt`: one `{key}: {value}\n` write per pair. -/
def narInfoToString (n : NarInfo) : List Char :=
  ((KEYS.zip (narInfoValues n)).foldl
    (fun acc kv => acc ++ kv.1 ++ ": ".toList ++ kv.2 ++ ['\n']) [])

/-- Recursive form of the emission loop, for reasoning. -/
def renderLines : List (List Char × List Char) → List Char
  | [] => []
  | (k, v) :: rest => k ++ ": ".toList ++ v ++ '\n' :: renderLines rest

/-- A concrete metadata record with no stated compression. -/
def c7ex : NarInfo :=
  { store_path :=
      ⟨"/nix/store/aaaaaaaaaaaaaaaaaaaaaaaaaaaaaaaa-pkg-1.0".toList,
       "aaaaaaaaaaaaaaaaaaaaaaaaaaaaaaaa".toList, "pkg-1.0".toList⟩,
    key := "k".toList,
    url := none,
    compression_type := none,
    file_hash := "sha256:fh".toList,
    file_size := 7,
    nar_hash := "sha256:nh".toList,
    nar_size := 9,
    references := [],
    deriver := none,
    signature := none }

/-- A concrete metadata record with two references, a deriver and a
signature, for the C7 witness. -/
def c7w : NarInfo :=
  { store_path :=
      ⟨"/nix/store/aaaaaaaaaaaaaaaaaaaaaaaaaaaaaaaa-pkg-1.0".toList,
       "aaaaaaaaaaaaaaaaaaaaaaaaaaaaaaaa".toList, "pkg-1.0".toList⟩,
    key := "k0".toList,
    url := some "nar/k0.nar.xz".toList,
    compression_type := some "xz".toList,
    file_hash := "sha256:fh".toList,
    file_size := 123,
    nar_hash := "sha256:nh".toList,
    nar_size := 456,
    references :=
      [⟨"/nix/store/bbbbbbbbbbbbbbbbbbbbbbbbbbbbbbbb-dep-2.1".toList,
        "bbbbbbbbbbbbbbbbbbbbbbbbbbbbbbbb".toList, "dep-2.1".toList⟩,
       ⟨"/nix/store/cccccccccccccccccccccccccccccccc-lib-3".toList,
        "cccccccccccccccccccccccccccccccc".toList, "lib-3".toList⟩],
    deriver :=
      some ⟨"/nix/store/dddddddddddddddddddddddddddddddd-pkg-1.0.drv".toList,
        "dddddddddddddddddddddddddddddddd".toList, "pkg-1.0.drv".toList⟩,
    signature := some "cache:sig==".toList }

/-! ## Git store and ingest (src/git_store/store.rs, repository.rs)

Object ids are naturals allocated from a counter; the git repository is a
state of reference, commit, blob and tree tables, all append-only for the
operations the ingest path uses.  The embedding covers the configuration
the store tests use (`settings.remotes` empty), under which
`add_package_from_git_remotes` returns `Ok(None)` without touching the
state, and an always-reachable local daemon.  `NixDaemon` is a finite
table from store path strings to path infos (`path_exists`= lookup
succeeds, `get_pathinfo` = the entry). -/


/-- The daemon's answer to `get_pathinfo`: reference paths, optional
deriver path, and the nar size. -/
structure PathInfo where
  references : List (List Char)
  deriver : Option (List Char)
  narSize : Nat
deriving DecidableEq

structure Daemon where
  paths : List (List Char × PathInfo)
deriving DecidableEq

/-- First-match association-list lookup (the `find_*` operations of the
repository resolve a key to the object stored under it). -/
def lookupA {κ β : Type} [DecidableEq κ] (l : List (κ × β)) (k : κ) : Option β :=
  (l.find? (fun x => decide (x.1 = k))).map (fun x => x.2)

def lookupPath (d : Daemon) (p : List Char) : Option PathInfo :=
  lookupA d.paths p

/-- A git commit: tree id, parent commit ids in order, message. -/
structure Commit where
  tree : Nat
  parents : List Nat
  message : List Char
deriving DecidableEq

/-- The git repository state.  `refs`, `commits`, `blobs` and `trees` are
association lists in insertion order; `nextOid` allocates fresh ids. -/
structure GState where
  refs : List (List Char × Nat)
  commits : List (Nat × Commit)
  blobs : List (Nat × List Char)
  trees : List Nat
  nextOid : Nat
deriving DecidableEq

/-- `Store::get_package_ref`: `refs/{hash}`. -/
def packageRef (h : List Char) : List Char := "refs/".toList ++ h

/-- `Store::get_result_ref`: `refs/{hash}/result`. -/
def resultRef (h : List Char) : List Char := packageRef h ++ "/result".toList

/-- `Store::get_narinfo_ref`: `refs/{hash}/narinfo`. -/
def narinfoRef (h : List Char) : List Char := packageRef h ++ "/narinfo".toList

/-- The dependency symbolic-ref names the spec describes
(`refs/{h}/deps/{d}/result` and `.../narinfo`); the code never creates
them. -/
def depsResultRef (h d : List Char) : List Char :=
  packageRef h ++ "/deps/".toList ++ d ++ "/result".toList

def depsNarinfoRef (h d : List Char) : List Char :=
  packageRef h ++ "/deps/".toList ++ d ++ "/narinfo".toList

/-- `GitRepo::get_oid_from_reference` / `find_reference`. -/
def findRefS (s : GState) (name : List Char) : Option Nat :=
  lookupA s.refs name

def lookupCommit (s : GState) (oid : Nat) : Option Commit :=
  lookupA s.commits oid

def lookupBlob (s : GState) (oid : Nat) : Option (List Char) :=
  lookupA s.blobs oid

/-- `Store::entry_exists`. -/
def entryExists (s : GState) (h : List Char) : Bool :=
  (findRefS s (resultRef h)).isSome

/-- `GitRepo::add_ref` (repository.rs line 88): `repo.reference(name, oid,
force := false, "")` — fails with EEXISTS when the reference already
exists, so references are write-once. -/
def addRef (s : GState) (name : List Char) (oid : Nat) : Except String GState :=
  if (findRefS s name).isSome then .error "reference already exists"
  else .ok { s with refs := s.refs ++ [(name, oid)] }

/-- `GitRepo::commit` (repository.rs lines 148-177): `find_tree` and
`find_commit` fail on unknown ids, then a commit object is written. -/
def doCommit (s : GState) (tree : Nat) (parents : List Nat) (msg : List Char) :
    Except String (Nat × GState) :=
  if tree ∈ s.trees then
    if parents.all (fun p => (lookupCommit s p).isSome) then
      .ok (s.nextOid,
        { s with commits := s.commits ++ [(s.nextOid, ⟨tree, parents, msg⟩)],
                 nextOid := s.nextOid + 1 })
    else .error "parent commit not found"
  else .error "tree not found"

/-- `path_info.references.iter().map(NixPath::new).collect::<Result<_>>()`. -/
def mapNixPaths : List (List Char) → Except String (List NixPath)
  | [] => .ok []
  | p :: rest =>
      nixPathNew p >>= fun np =>
      mapNixPaths rest >>= fun nps =>
      .ok (np :: nps)

/-- The `NarInfo` built by `Store::add_narinfo` (store.rs lines 242-251).
The call site passes 8 arguments to the 10-parameter `NarInfo::new`, so it
cannot be matched positionally; fields are taken by parameter name where
the call names them (deriver, references, nar_size from the daemon, no
compression, `url: None` from `new`), and the remaining string/size fields
are empty — none of them are consulted by the ingest logic. -/
def mkNarInfo (sp : NixPath) (key : List Char) (pi : PathInfo) :
    Except String NarInfo :=
  (match pi.deriver with
   | none => .ok none
   | some dstr => (nixPathNew dstr).map some) >>= fun deriv =>
  mapNixPaths pi.references >>= fun refs =>
  .ok { store_path := sp, key := key, url := none, compression_type := none,
        file_hash := [], file_size := 0, nar_hash := [], nar_size := pi.narSize,
        references := refs, deriver := deriv, signature := none }

/-- `NarInfo::get_dependencies`: references not equal to the store path
(`NixPath` equality compares the `path` fields). -/
def narDeps (ni : NarInfo) : List NixPath :=
  ni.references.filter (fun r => !(decide (r.path = ni.store_path.path)))

/-- `Store::add_narinfo` (store.rs lines 223-260): build the record, write
its serialization as a blob, then point `refs/{hash}/narinfo` at it. -/
def addNarinfo (sp : NixPath) (key : List Char) (pi : PathInfo) (s : GState) :
    Except String (NarInfo × GState) :=
  mkNarInfo sp key pi >>= fun ni =>
  addRef { s with blobs := s.blobs ++ [(s.nextOid, narInfoToString ni)],
                  nextOid := s.nextOid + 1 }
    (narinfoRef sp.hash) s.nextOid >>= fun s2 =>
  .ok (ni, s2)

/-- `Store::try_add_package` (store.rs lines 197-220): fail if the daemon
does not know the path, otherwise store the fetched content (a fresh tree
id from `add_nar`) and add the narinfo keyed by that id. -/
def tryAddPackage (d : Daemon) (sp : NixPath) (s : GState) :
    Except String (NarInfo × Nat × GState) :=
  match lookupPath d sp.path with
  | none => .error "Path does not exist"
  | some pi =>
      addNarinfo sp (natToDec s.nextOid)
        pi { s with trees := s.trees ++ [s.nextOid], nextOid := s.nextOid + 1 }
        >>= fun r => .ok (r.1, s.nextOid, r.2)

/-- The dependency loop of `_add_closure` (store.rs lines 99-104): ingest
each dependency with `count + 1`, collecting parent commit ids in narinfo
order and summing the added counts. -/
def addDepsGo
    (step : NixPath → Nat → GState → Except String (Nat × Nat × GState)) :
    List NixPath → Nat → GState → Except String (List Nat × Nat × GState)
  | [], _, s => .ok ([], 0, s)
  | dep :: rest, cnt, s =>
      step dep cnt s >>= fun r1 =>
      addDepsGo step rest cnt r1.2.2 >>= fun r2 =>
      .ok (r1.1 :: r2.1, r1.2.1 + r2.2.1, r2.2.2)

/-- One unfolding of `Store::_add_closure` (store.rs lines 74-112) with
the recursive call abstracted as `step`: depth guard at `count == 100`,
then the result-ref short-circuit, then (with no git remotes configured)
fetch from the daemon, ingest dependencies, commit with the collected
parents and the package name as message, and set the result ref. -/
def addClosureBody (d : Daemon)
    (step : NixPath → Nat → GState → Except String (Nat × Nat × GState))
    (sp : NixPath) (cnt : Nat) (s : GState) :
    Except String (Nat × Nat × GState) :=
  if cnt = 100 then .error "Dependency Depth Limit exceeded"
  else
    match findRefS s (resultRef sp.hash) with
    | some oid => .ok (oid, 0, s)
    | none =>
        tryAddPackage d sp s >>= fun r1 =>
        addDepsGo step (narDeps r1.1) (cnt + 1) r1.2.2 >>= fun r2 =>
        doCommit r2.2.2 r1.2.1 r2.1 sp.name >>= fun r3 =>
        addRef r3.2 (resultRef sp.hash) r3.1 >>= fun s4 =>
        .ok (r3.1, 1 + r2.2.1, s4)

/-- `Store::_add_closure`, recursion made structural on fuel.  Called with
fuel `101` at `count = 0`, the `count == 100` guard always fires before
the fuel runs out, so the fuel case is unreachable and the depth guard is
the binding limit, as in the source. -/
def addClosureF (d : Daemon) :
    Nat → NixPath → Nat → GState → Except String (Nat × Nat × GState)
  | 0, _, _, _ => .error "recursion fuel exhausted"
  | f + 1, sp, cnt, s => addClosureBody d (addClosureF d f) sp cnt s

/-- `Store::add_closure`: `_add_closure(store_path, 0)`. -/
def addClosure (d : Daemon) (sp : NixPath) (s : GState) :
    Except String (Nat × Nat × GState) :=
  addClosureF d 101 sp 0 s

/-- fnmatch-style glob matching as used by `references_glob`: `*` matches
any (possibly empty) character sequence, every other character matches
itself.  Fuel-structural; `pat.length + s.length + 1` steps always
suffice. -/
def globMatchF : Nat → List Char → List Char → Bool
  | 0, _, _ => false
  | f + 1, pat, s =>
      match pat, s with
      | [], [] => true
      | [], _ :: _ => false
      | '*' :: ps, [] => globMatchF f ps []
      | '*' :: ps, c :: s' =>
          globMatchF f ps (c :: s') || globMatchF f ('*' :: ps) s'
      | _ :: _, [] => false
      | p :: ps, c :: s' => decide (p = c) && globMatchF f ps s'

def globMatch (pat s : List Char) : Bool :=
  globMatchF (pat.length + s.length + 1) pat s

/-- `GitRepo::list_references`: names of the references matching the
glob, in iteration order. -/
def listReferences (s : GState) (pat : List Char) : List (List Char) :=
  (s.refs.filter (fun r => globMatch pat r.1)).map (fun r => r.1)

/-- The literal pattern `Store::list_entries` passes (store.rs line 282):
the placeholder was never interpolated, so the braces are matched as
ordinary characters. -/
def PACKAGE_GLOB : List Char := "\x7bPACKGAGE_PREFIX_REF\x7d/*".toList

/-- `Store::list_entries`. -/
def listEntries (s : GState) : List (List Char) :=
  listReferences s PACKAGE_GLOB

/-! ### Store invariants -/


/-- The state only ever grows: every table of `s` is an initial segment of
the corresponding table of `s'`. -/
def grows (s s' : GState) : Prop :=
  (∃ d, s'.refs = s.refs ++ d) ∧ (∃ d, s'.commits = s.commits ++ d) ∧
  (∃ d, s'.blobs = s.blobs ++ d) ∧ (∃ d, s'.trees = s.trees ++ d) ∧
  s.nextOid ≤ s'.nextOid

/-- Every stored id is below the allocation counter, so fresh ids never
collide. -/
def oidBound (s : GState) : Prop :=
  (∀ r ∈ s.refs, r.2 < s.nextOid) ∧ (∀ c ∈ s.commits, c.1 < s.nextOid) ∧
  (∀ b ∈ s.blobs, b.1 < s.nextOid) ∧ (∀ t ∈ s.trees, t < s.nextOid)

/-- No orphan result ref, on a reference table: every package whose
result ref resolves also has its narinfo ref. -/
def refsOK (refs : List (List Char × Nat)) : Prop :=
  ∀ h, (lookupA refs (resultRef h)).isSome → (lookupA refs (narinfoRef h)).isSome

/-- `refsOK` for every initial segment of the reference table.  The
reference table is append-only and written in program order, so the
initial segments are exactly the reference tables of the partial states
an interrupted ingest can leave behind. -/
def prefixInv (refs : List (List Char × Nat)) : Prop :=
  ∀ p, p <+: refs → refsOK p

/-- C4's per-package property: the commit `c` stored for package hash `h`
has as parents exactly the result commits of the dependencies (self
excluded) of the narinfo serialized at `refs/{h}/narinfo`, in narinfo
order. -/
def C4prop (s : GState) (h : List Char) (c : Nat) : Prop :=
  ∃ ni bo cm,
    findRefS s (narinfoRef h) = some bo ∧
    lookupBlob s bo = some (narInfoToString ni) ∧
    lookupCommit s c = some cm ∧
    List.Forall₂ (fun dep p => findRefS s (resultRef dep.hash) = some p)
      (narDeps ni) cm.parents

/-- C4 as a state invariant: every resolving result ref satisfies
`C4prop`. -/
def C4inv (s : GState) : Prop :=
  ∀ h c, findRefS s (resultRef h) = some c → C4prop s h c

/-! ### The run invariant -/


/-- Everything a successful ingest step guarantees about the state it
leaves behind: the state only grows, every new reference is a result or
narinfo ref, and the oid-freshness, no-orphan-result and
parents-encode-dependencies invariants are preserved. -/
def stepOK (s s' : GState) : Prop :=
  grows s s' ∧
  (∀ r ∈ s'.refs, r ∈ s.refs ∨ (∃ h, r.1 = resultRef h) ∨
    (∃ h, r.1 = narinfoRef h)) ∧
  (oidBound s → oidBound s') ∧
  (prefixInv s.refs → prefixInv s'.refs) ∧
  (oidBound s → C4inv s → C4inv s')

/-! ### Concrete two-package scenario (pkga depends on pkgb) -/


def hashA : List Char := "aaaaaaaaaaaaaaaaaaaaaaaaaaaaaaaa".toList

def hashB : List Char := "bbbbbbbbbbbbbbbbbbbbbbbbbbbbbbbb".toList

def spA : NixPath :=
  ⟨"/nix/store/aaaaaaaaaaaaaaaaaaaaaaaaaaaaaaaa-pkga".toList, hashA,
   "pkga".toList⟩

def spB : NixPath :=
  ⟨"/nix/store/bbbbbbbbbbbbbbbbbbbbbbbbbbbbbbbb-pkgb".toList, hashB,
   "pkgb".toList⟩

/-- A daemon holding two packages; pkga references itself and pkgb, pkgb
references only itself. -/
def d0 : Daemon :=
  ⟨[(spA.path, ⟨[spA.path, spB.path], none, 5⟩),
    (spB.path, ⟨[spB.path], none, 3⟩)]⟩

/-- The empty repository. -/
def st0 : GState := ⟨[], [], [], [], 0⟩

/-- The result of ingesting pkga's closure into the empty repository:
commit 5 for pkga with parent commit 4 for pkgb, 2 packages added. -/
def exRun : Nat × Nat × GState := (addClosure d0 spA st0).toOption.getD (0, 0, st0)

def exS : GState := exRun.2.2

/-- The narinfo record the run stores for pkga. -/
def niA : NarInfo :=
  { store_path := spA, key := natToDec 0, url := none,
    compression_type := none, file_hash := [], file_size := 0,
    nar_hash := [], nar_size := 5, references := [spA, spB],
    deriver := none, signature := none }

/-! # Theorems -/

theorem fromLE_toLE (k n : Nat) : fromLE (toLE k n) = n % 256 ^ k := by
  induction k generalizing n with
  | zero => simp [toLE, fromLE, Nat.mod_one]
  | succ k ih =>
      simp only [toLE, fromLE, ih, Nat.mod_mod_of_dvd _ dvd_rfl]
      rw [pow_succ', Nat.mod_mul]

theorem lexLt_irrefl (l : List Nat) : lexLt l l = false := by
  induction l with
  | nil => rfl
  | cons a as ih => simp [lexLt, ih]

theorem lexLt_trans {a b c : List Nat} (h₁ : lexLt a b = true)
    (h₂ : lexLt b c = true) : lexLt a c = true := by
  induction a generalizing b c with
  | nil =>
      cases b with
      | nil => simp [lexLt] at h₁
      | cons y ys =>
          cases c with
          | nil => simp [lexLt] at h₂
          | cons z zs => simp [lexLt]
  | cons x xs ih =>
      cases b with
      | nil => simp [lexLt] at h₁
      | cons y ys =>
          cases c with
          | nil => simp [lexLt] at h₂
          | cons z zs =>
              simp only [lexLt, Bool.or_eq_true, decide_eq_true_eq,
                Bool.and_eq_true, beq_iff_eq] at h₁ h₂ ⊢
              rcases h₁ with h₁ | ⟨rfl, h₁⟩
              · rcases h₂ with h₂ | ⟨rfl, h₂⟩
                · exact Or.inl (h₁.trans h₂)
                · exact Or.inl h₁
              · rcases h₂ with h₂ | ⟨rfl, h₂⟩
                · exact Or.inl h₂
                · exact Or.inr ⟨rfl, ih h₁ h₂⟩

theorem lexLt_connex {a b : List Nat} (h₁ : lexLt a b = false)
    (h₂ : lexLt b a = false) : a = b := by
  induction a generalizing b with
  | nil =>
      cases b with
      | nil => rfl
      | cons y ys => simp [lexLt] at h₁
  | cons x xs ih =>
      cases b with
      | nil => simp [lexLt] at h₂
      | cons y ys =>
          simp only [lexLt, Bool.or_eq_false_iff, decide_eq_false_iff_not,
            Bool.and_eq_false_imp, beq_iff_eq] at h₁ h₂
          have hxy : x = y := by omega
          subst hxy
          exact congrArg _ (ih (h₁.2 rfl) (h₂.2 rfl))

theorem lexLt_asymm {a b : List Nat} (h : lexLt a b = true) :
    lexLt b a = false := by
  by_contra hc
  have h' : lexLt b a = true := by
    cases hba : lexLt b a with
    | false => exact absurd hba hc
    | true => rfl
  have := lexLt_trans h h'
  rw [lexLt_irrefl] at this
  exact Bool.false_ne_true this

/-- Two lists that are permutations of each other and both strictly sorted
by the same key are equal. -/
theorem perm_sorted_unique {α : Type} (key : α → List Nat) :
    ∀ {l₁ l₂ : List α}, l₁.Perm l₂ →
      l₁.Pairwise (fun x y => lexLt (key x) (key y) = true) →
      l₂.Pairwise (fun x y => lexLt (key x) (key y) = true) → l₁ = l₂ := by
  intro l₁
  induction l₁ with
  | nil => intro l₂ hp _ _; exact (hp.nil_eq).symm ▸ rfl
  | cons a t₁ ih =>
      intro l₂ hp s₁ s₂
      cases l₂ with
      | nil => exact absurd hp.symm (by simp)
      | cons b t₂ =>
          have hab : a = b := by
            by_contra hne
            have ha : a ∈ b :: t₂ := hp.mem_iff.mp (List.mem_cons_self a t₁)
            have hb : b ∈ a :: t₁ := hp.symm.mem_iff.mp (List.mem_cons_self b t₂)
            have ha' : a ∈ t₂ := by
              cases ha with
              | head => exact absurd rfl hne
              | tail _ h => exact h
            have hb' : b ∈ t₁ := by
              cases hb with
              | head => exact absurd rfl (fun h => hne h.symm)
              | tail _ h => exact h
            have h₁ : lexLt (key a) (key b) = true :=
              (List.pairwise_cons.mp s₁).1 b hb'
            have h₂ : lexLt (key b) (key a) = true :=
              (List.pairwise_cons.mp s₂).1 a ha'
            rw [lexLt_asymm h₂] at h₁
            exact Bool.false_ne_true h₁
          subst hab
          have ht := ih hp.cons_inv (List.pairwise_cons.mp s₁).2
            (List.pairwise_cons.mp s₂).2
          rw [ht]

theorem keyLe_total (key : Ent → List Nat) (a b : Ent) :
    keyLe key a b ∨ keyLe key b a := by
  unfold keyLe
  cases h : lexLt (key b) (key a) with
  | false => exact Or.inl rfl
  | true => exact Or.inr (lexLt_asymm h)

theorem keyLe_trans (key : Ent → List Nat) {a b c : Ent}
    (h₁ : keyLe key a b) (h₂ : keyLe key b c) : keyLe key a c := by
  unfold keyLe at *
  cases h : lexLt (key c) (key a) with
  | false => rfl
  | true =>
      exfalso
      cases hab : lexLt (key a) (key b) with
      | true => rw [lexLt_trans h hab] at h₂; exact absurd h₂ (by simp)
      | false =>
          have hba : key b = key a := lexLt_connex h₁ hab
          rw [hba] at h₂
          rw [h] at h₂
          exact absurd h₂ (by simp)

theorem sizeOf_perm {l₁ l₂ : List Ent} (h : l₁.Perm l₂) :
    sizeOf l₁ = sizeOf l₂ := by
  induction h with
  | nil => rfl
  | cons _ _ ih => simp [ih]
  | swap => simp; omega
  | trans _ _ ih₁ ih₂ => omega

theorem sizeOf_sortByKey (key : Ent → List Nat) (l : List Ent) :
    sizeOf (sortByKey key l) = sizeOf l :=
  sizeOf_perm (List.perm_insertionSort _ l)

theorem entsFuel_perm {l₁ l₂ : List Ent} (h : l₁.Perm l₂) :
    entsFuel l₁ = entsFuel l₂ := by
  induction h with
  | nil => rfl
  | cons x _ ih => obtain ⟨n, m, c⟩ := x; simp [entsFuel, ih]
  | swap x y l =>
      obtain ⟨n, m, c⟩ := x
      obtain ⟨n', m', c'⟩ := y
      simp [entsFuel]; omega
  | trans _ _ ih₁ ih₂ => omega

/-- Any surplus fuel is irrelevant to the encoder: `nodeFuel`/`entsFuel`
are always sufficient, so `encodeNode`/`encodeEntries` satisfy exactly the
recursion equations of `_encode_into`. -/
theorem encode_irrel_aux (n : Nat) :
    (∀ (obj : GitObj) (mode : Nat), sizeOf obj ≤ n → ∀ (k : Nat),
      encodeNodeF (nodeFuel obj + k) obj mode = encodeNode obj mode) ∧
    (∀ (l : List Ent), sizeOf l ≤ n → ∀ (k : Nat),
      encodeEntriesF (entsFuel l + k) l = encodeEntries l) := by
  induction n using Nat.strong_induction_on with
  | _ n IH =>
  constructor
  · intro obj mode hsz k
    cases obj with
    | blob content =>
        simp only [encodeNode]
        rw [show nodeFuel (GitObj.blob content) + k = k + 1 by
          simp [nodeFuel]; omega]
        rw [show nodeFuel (GitObj.blob content) = 0 + 1 by simp [nodeFuel] <;> omega]
        simp only [encodeNodeF]
    | tree entries =>
        have hperm : (sortByKey plainKey entries).Perm entries :=
          List.perm_insertionSort _ _
        have hszlt : sizeOf (sortByKey plainKey entries) < n := by
          rw [sizeOf_sortByKey]
          have : sizeOf entries < sizeOf (GitObj.tree entries) := by simp
          omega
        simp only [encodeNode]
        rw [show nodeFuel (GitObj.tree entries) + k =
          (entsFuel entries + k) + 1 by simp [nodeFuel] <;> omega]
        rw [show nodeFuel (GitObj.tree entries) = entsFuel entries + 1 by
          simp [nodeFuel] <;> omega]
        simp only [encodeNodeF]
        rw [show entsFuel entries = entsFuel (sortByKey plainKey entries)
          from (entsFuel_perm hperm).symm]
        rw [(IH _ hszlt).2 (sortByKey plainKey entries) (le_refl _) k]
        rw [show entsFuel (sortByKey plainKey entries) =
          entsFuel (sortByKey plainKey entries) + 0 by omega]
        rw [(IH _ hszlt).2 (sortByKey plainKey entries) (le_refl _) 0]
  · intro l hsz k
    cases l with
    | nil =>
        simp only [encodeEntries]
        rw [show entsFuel ([] : List Ent) + k = k + 1 by
          simp [entsFuel]; omega]
        rw [show entsFuel ([] : List Ent) = 0 + 1 by simp [entsFuel] <;> omega]
        simp only [encodeEntriesF]
    | cons ent rest =>
        obtain ⟨name, mode, child⟩ := ent
        have hltc : sizeOf child < n := by
          have : sizeOf child < sizeOf ((name, mode, child) :: rest) := by
            simp <;> omega
          omega
        have hltr : sizeOf rest < n := by
          have : sizeOf rest < sizeOf ((name, mode, child) :: rest) := by
            simp <;> omega
          omega
        simp only [encodeEntries]
        rw [show entsFuel ((name, mode, child) :: rest) + k =
          (nodeFuel child + entsFuel rest + k) + 1 by simp [entsFuel] <;> omega]
        rw [show entsFuel ((name, mode, child) :: rest) =
          (nodeFuel child + entsFuel rest) + 1 by simp [entsFuel] <;> omega]
        simp only [encodeEntriesF]
        rw [show nodeFuel child + entsFuel rest + k =
          nodeFuel child + (entsFuel rest + k) by omega]
        rw [(IH _ hltc).1 child mode (le_refl _) (entsFuel rest + k)]
        rw [show nodeFuel child + (entsFuel rest + k) =
          entsFuel rest + (nodeFuel child + k) by omega]
        rw [(IH _ hltr).2 rest (le_refl _) (nodeFuel child + k)]
        rw [show nodeFuel child + entsFuel rest =
          nodeFuel child + (entsFuel rest + 0) by omega]
        rw [(IH _ hltc).1 child mode (le_refl _) (entsFuel rest + 0)]
        rw [show nodeFuel child + (entsFuel rest + 0) =
          entsFuel rest + (nodeFuel child + 0) by omega]
        rw [(IH _ hltr).2 rest (le_refl _) (nodeFuel child + 0)]

/-- Fuel irrelevance for one node. -/
theorem encodeNodeF_irrel (obj : GitObj) (mode k : Nat) :
    encodeNodeF (nodeFuel obj + k) obj mode = encodeNode obj mode :=
  (encode_irrel_aux (sizeOf obj)).1 obj mode (le_refl _) k

/-- Fuel irrelevance for an entry list. -/
theorem encodeEntriesF_irrel (l : List Ent) (k : Nat) :
    encodeEntriesF (entsFuel l + k) l = encodeEntries l :=
  (encode_irrel_aux (sizeOf l)).2 l (le_refl _) k

/-- The source's recursion equation for `_encode_into` at a tree node. -/
theorem encodeNode_tree (entries : List Ent) (mode : Nat) :
    encodeNode (GitObj.tree entries) mode =
      (encodeEntries (sortByKey plainKey entries)).map
        (fun es => frame (bytes "(") ++ frame (bytes "type") ++
          frame (bytes "directory") ++ es ++ frame (bytes ")")) := by
  simp only [encodeNode]
  rw [show nodeFuel (GitObj.tree entries) = entsFuel entries + 1 by
    simp [nodeFuel] <;> omega]
  simp only [encodeNodeF]
  have hperm : (sortByKey plainKey entries).Perm entries :=
    List.perm_insertionSort _ _
  rw [show entsFuel entries = entsFuel (sortByKey plainKey entries) +
    (entsFuel entries - entsFuel (sortByKey plainKey entries)) by
      rw [entsFuel_perm hperm]; omega]
  rw [encodeEntriesF_irrel]

/-- The source's recursion equation for the entry loop at a cons cell. -/
theorem encodeEntries_cons (name : List Nat) (mode : Nat) (child : GitObj)
    (rest : List Ent) :
    encodeEntries ((name, mode, child) :: rest) =
      (if utf8Valid name then
        match encodeNode child mode with
        | .error e => .error e
        | .ok c =>
            match encodeEntries rest with
            | .error e => .error e
            | .ok r =>
                .ok (frame (bytes "entry") ++ frame (bytes "(") ++
                  frame (bytes "name") ++ frame name ++ frame (bytes "node") ++
                  c ++ frame (bytes ")") ++ r)
      else .error "non-UTF-8 entry name") := by
  simp only [encodeEntries]
  rw [show entsFuel ((name, mode, child) :: rest) =
    (nodeFuel child + entsFuel rest) + 1 by simp [entsFuel] <;> omega]
  simp only [encodeEntriesF]
  rw [show nodeFuel child + entsFuel rest =
    nodeFuel child + (entsFuel rest + 0) by omega]
  rw [encodeNodeF_irrel]
  rw [show nodeFuel child + (entsFuel rest + 0) =
    entsFuel rest + (nodeFuel child + 0) by omega]
  rw [encodeEntriesF_irrel]
  rfl

theorem ok_bind {α β : Type} (a : α) (f : α → Except String β) :
    (Except.ok a >>= f) = f a := rfl

theorem error_bind {α β : Type} (e : String) (f : α → Except String β) :
    ((Except.error e : Except String α) >>= f) = Except.error e := rfl

/-! ## Frame-consumption lemmas for the decoder -/


theorem toLE_length (k n : Nat) : (toLE k n).length = k := by
  induction k generalizing n with
  | zero => rfl
  | succ k ih => simp [toLE, ih]

theorem readPadded_frame (p r : List Nat) (hlen : p.length < 2 ^ 64) :
    readPadded (frame p ++ r) = .ok (p, r) := by
  have hto : (toLE 8 p.length).length = 8 := toLE_length 8 _
  have hfrom : fromLE (toLE 8 p.length) = p.length := by
    rw [fromLE_toLE, show (256 : Nat) ^ 8 = 2 ^ 64 by norm_num,
      Nat.mod_eq_of_lt hlen]
  have hrw : frame p ++ r =
      toLE 8 p.length ++ (p ++ (List.replicate (padLenOf p.length) 0 ++ r)) := by
    simp [frame]
  have htk : List.take (padLenOf p.length)
      (List.replicate (padLenOf p.length) 0 ++ r) =
      List.replicate (padLenOf p.length) 0 :=
    List.take_left' (List.length_replicate _ _)
  have hdr : List.drop (padLenOf p.length)
      (List.replicate (padLenOf p.length) 0 ++ r) = r :=
    List.drop_left' (List.length_replicate _ _)
  rw [readPadded, hrw, List.take_left' hto, List.drop_left' hto, hfrom]
  simp only [List.take_left, List.drop_left, htk, hdr, List.length_append,
    hto, List.length_replicate]
  rw [if_pos (by omega), if_pos (by omega), if_pos (by omega),
    if_pos (by simp [List.mem_replicate])]

theorem readExpect_frame (p r : List Nat) (hlen : p.length < 2 ^ 64) :
    readExpect p (frame p ++ r) = .ok r := by
  simp [readExpect, readPadded_frame p r hlen]

theorem readUtf8Padded_frame (p r : List Nat) (hlen : p.length < 2 ^ 64)
    (hu : utf8Valid p = true) :
    readUtf8Padded (frame p ++ r) = .ok (p, r) := by
  simp [readUtf8Padded, readPadded_frame p r hlen, hu]

/-! ## Sorting and treebuilder lemmas -/


theorem lexLt_ne {a b : List Nat} (h : lexLt a b = true) : a ≠ b := by
  intro he
  subst he
  rw [lexLt_irrefl] at h
  exact Bool.false_ne_true h

theorem sortByKey_sorted (key : Ent → List Nat) (l : List Ent) :
    (sortByKey key l).Pairwise (keyLe key) := by
  haveI : IsTotal Ent (keyLe key) := ⟨keyLe_total key⟩
  haveI : IsTrans Ent (keyLe key) := ⟨fun _ _ _ h₁ h₂ => keyLe_trans key h₁ h₂⟩
  exact List.sorted_insertionSort _ l

theorem sortByKey_pairwise_lt (key : Ent → List Nat) (l : List Ent)
    (hnd : l.Pairwise (fun a b => key a ≠ key b)) :
    (sortByKey key l).Pairwise (fun a b => lexLt (key a) (key b) = true) := by
  have hs := sortByKey_sorted key l
  have hperm : (sortByKey key l).Perm l := List.perm_insertionSort _ l
  have hsymm : Symmetric (fun a b : Ent => key a ≠ key b) :=
    fun _ _ h => fun he => h he.symm
  have hnd' : (sortByKey key l).Pairwise (fun a b => key a ≠ key b) :=
    (hperm.pairwise_iff (fun {_ _} h => hsymm h)).mpr hnd
  refine (hs.and hnd').imp ?_
  intro a b hab
  obtain ⟨hle, hne⟩ := hab
  cases hlt : lexLt (key a) (key b) with
  | true => rfl
  | false => exact absurd (lexLt_connex hlt hle) hne

theorem dedupLast_eq_self {l : List Ent}
    (h : l.Pairwise (fun a b => a.1 ≠ b.1)) : dedupLast l = l := by
  induction l with
  | nil => rfl
  | cons e rest ih =>
      obtain ⟨hhead, htail⟩ := List.pairwise_cons.mp h
      rw [dedupLast, if_neg, ih htail]
      simp only [List.any_eq_true, decide_eq_true_eq, not_exists, not_and]
      intro x hx
      exact fun hxe => (hhead x hx) hxe.symm

/-- Entries with treebuilder-valid names (no `/`) and equal canonical git
sort keys have equal names. -/
theorem gitKey_inj {a b : Ent} (ha : validEntryName a.1 = true)
    (hb : validEntryName b.1 = true) (h : gitKey a = gitKey b) : a.1 = b.1 := by
  have hmem : ∀ {e : Ent}, validEntryName e.1 = true → 47 ∉ e.1 := by
    intro e he
    simp only [validEntryName, Bool.and_eq_true, Bool.not_eq_true',
      decide_eq_false_iff_not] at he
    exact he.1.2
  simp only [gitKey] at h
  by_cases hta : a.2.1 = modeTree <;> by_cases htb : b.2.1 = modeTree
  · rw [if_pos hta, if_pos htb] at h
    exact List.append_cancel_right h
  · rw [if_pos hta, if_neg htb, List.append_nil] at h
    exact absurd (h ▸ List.mem_append_right a.1 (List.mem_singleton_self 47))
      (hmem hb)
  · rw [if_neg hta, if_pos htb, List.append_nil] at h
    exact absurd (h ▸ List.mem_append_right b.1 (List.mem_singleton_self 47))
      (hmem ha)
  · rw [if_neg hta, if_neg htb, List.append_nil, List.append_nil] at h
    exact h

/-- The decoder's treebuilder write inverts the encoder's plain-name sort
on a canonically stored tree: collecting the plain-sorted entries and
re-storing them through the treebuilder recovers the original entry
list. -/
theorem treeWrite_sortByName {entries : List Ent}
    (hg : entries.Pairwise (fun a b => lexLt (gitKey a) (gitKey b) = true))
    (hn : entries.Pairwise (fun a b => a.1 ≠ b.1))
    (hv : ∀ e ∈ entries, validEntryName e.1 = true) :
    treeWrite (sortByKey plainKey entries) = entries := by
  have hperm : (sortByKey plainKey entries).Perm entries :=
    List.perm_insertionSort _ _
  have hsymm : Symmetric (fun a b : Ent => a.1 ≠ b.1) :=
    fun _ _ h => fun he => h he.symm
  have hn' : (sortByKey plainKey entries).Pairwise (fun a b => a.1 ≠ b.1) :=
    (hperm.pairwise_iff (fun {_ _} h => hsymm h)).mpr hn
  rw [treeWrite, dedupLast_eq_self hn']
  apply perm_sorted_unique gitKey ((List.perm_insertionSort _ _).trans hperm)
  · apply sortByKey_pairwise_lt
    refine List.Pairwise.imp_of_mem ?_ hn'
    intro a b hma hmb hne hk
    have hva := hv a (hperm.mem_iff.mp hma)
    have hvb := hv b (hperm.mem_iff.mp hmb)
    exact hne (gitKey_inj hva hvb hk)
  · exact hg

/-! ## Decode ∘ encode round trip -/


/-- Strong-induction core of the decode ∘ encode round trip: decoding the
synchronous encoder's output of a well-formed stored node returns the same
object and filemode and consumes exactly the encoding (and likewise for
entry lists followed by the closing parenthesis), for any sufficient
fuel. -/
theorem decode_encode_aux (n : Nat) :
    (∀ (obj : GitObj) (mode : Nat) (bs : List Nat), sizeOf obj ≤ n →
      WFNode obj → modeOk mode obj → encodeNode obj mode = .ok bs →
      ∀ (k : Nat) (r : List Nat),
        decodeNodeF (nodeFuel obj + k) (bs ++ r) = .ok (obj, mode, r)) ∧
    (∀ (l : List Ent) (bs : List Nat), sizeOf l ≤ n →
      (∀ e ∈ l, WFNode e.2.2) →
      (∀ e ∈ l, utf8Valid e.1 = true ∧ e.1.length < 2 ^ 64 ∧
        modeOk e.2.1 e.2.2) →
      encodeEntries l = .ok bs → ∀ (k : Nat) (r : List Nat),
        decodeEntriesF (entsFuel l + k) (bs ++ (frame (bytes ")") ++ r)) =
          .ok (l, r)) := by
  induction n using Nat.strong_induction_on with
  | _ n IH =>
  constructor
  · intro obj mode bs hsz hwf hm henc k r
    cases obj with
    | blob content =>
        have hlen : content.length < 2 ^ 64 := by
          cases hwf with | blob h => exact h
        rw [show nodeFuel (GitObj.blob content) + k = k + 1 by
          simp [nodeFuel]; omega]
        simp only [modeOk] at hm
        rcases hm with rfl | rfl | rfl
        · -- regular blob
          simp only [encodeNode, nodeFuel, encodeNodeF] at henc
          rw [if_pos trivial] at henc
          injection henc with henc
          subst henc
          simp only [List.append_assoc]
          simp only [decodeNodeF]
          rw [readExpect_frame _ _ (by decide)]; simp only [ok_bind]
          rw [readExpect_frame _ _ (by decide)]; simp only [ok_bind]
          rw [readUtf8Padded_frame _ _ (by decide) (by decide)]
          simp only [ok_bind]
          rw [if_pos trivial]
          rw [readUtf8Padded_frame _ _ (by decide) (by decide)]
          simp only [ok_bind]
          rw [if_neg (show ¬(bytes "contents" = bytes "executable") by decide)]
          rw [if_pos trivial]
          simp only [ok_bind]
          rw [readPadded_frame _ _ hlen]; simp only [ok_bind]
          rw [readExpect_frame _ _ (by decide)]; simp only [ok_bind]
        · -- executable blob
          simp only [encodeNode, nodeFuel, encodeNodeF] at henc
          rw [if_pos trivial] at henc
          injection henc with henc
          subst henc
          simp only [List.append_assoc]
          simp only [decodeNodeF]
          rw [readExpect_frame _ _ (by decide)]; simp only [ok_bind]
          rw [readExpect_frame _ _ (by decide)]; simp only [ok_bind]
          rw [readUtf8Padded_frame _ _ (by decide) (by decide)]
          simp only [ok_bind]
          rw [if_pos trivial]
          rw [readUtf8Padded_frame _ _ (by decide) (by decide)]
          simp only [ok_bind]
          rw [if_pos trivial]
          rw [readExpect_frame _ _ (by decide)]; simp only [ok_bind]
          rw [readExpect_frame _ _ (by decide)]; simp only [ok_bind]
          rw [readPadded_frame _ _ hlen]; simp only [ok_bind]
          rw [readExpect_frame _ _ (by decide)]; simp only [ok_bind]
        · -- symlink blob
          simp only [encodeNode, nodeFuel, encodeNodeF] at henc
          rw [if_pos trivial] at henc
          injection henc with henc
          subst henc
          simp only [List.append_assoc]
          simp only [decodeNodeF]
          rw [readExpect_frame _ _ (by decide)]; simp only [ok_bind]
          rw [readExpect_frame _ _ (by decide)]; simp only [ok_bind]
          rw [readUtf8Padded_frame _ _ (by decide) (by decide)]
          simp only [ok_bind]
          rw [if_neg (show ¬(bytes "symlink" = bytes "regular") by decide)]
          rw [if_pos trivial]
          rw [readExpect_frame _ _ (by decide)]; simp only [ok_bind]
          rw [readPadded_frame _ _ hlen]; simp only [ok_bind]
          rw [readExpect_frame _ _ (by decide)]; simp only [ok_bind]
    | tree entries =>
        have hmt : mode = modeTree := hm
        subst hmt
        cases hwf with
        | tree hsorted hnames hents hrec =>
        cases hes : encodeEntries (sortByKey plainKey entries) with
        | error e =>
            rw [encodeNode_tree, hes] at henc
            exact absurd henc (by simp [Except.map])
        | ok es =>
            rw [encodeNode_tree, hes] at henc
            simp only [Except.map] at henc
            injection henc with henc
            subst henc
            have hperm : (sortByKey plainKey entries).Perm entries :=
              List.perm_insertionSort _ _
            have hszlt : sizeOf (sortByKey plainKey entries) < n := by
              rw [sizeOf_sortByKey]
              have : sizeOf entries < sizeOf (GitObj.tree entries) := by
                simp
              omega
            rw [show nodeFuel (GitObj.tree entries) + k =
              (entsFuel entries + k) + 1 by simp [nodeFuel] <;> omega]
            simp only [List.append_assoc]
            simp only [decodeNodeF]
            rw [readExpect_frame _ _ (by decide)]; simp only [ok_bind]
            rw [readExpect_frame _ _ (by decide)]; simp only [ok_bind]
            rw [readUtf8Padded_frame _ _ (by decide) (by decide)]
            simp only [ok_bind]
            rw [if_neg (show ¬(bytes "directory" = bytes "regular") by decide)]
            rw [if_neg (show ¬(bytes "directory" = bytes "symlink") by decide)]
            rw [if_pos trivial]
            rw [show entsFuel entries = entsFuel (sortByKey plainKey entries)
              from (entsFuel_perm hperm).symm]
            rw [(IH _ hszlt).2 (sortByKey plainKey entries) es (le_refl _)
              (fun e he => hrec e (hperm.mem_iff.mp he))
              (fun e he =>
                ⟨(hents e (hperm.mem_iff.mp he)).1,
                 (hents e (hperm.mem_iff.mp he)).2.2.1,
                 (hents e (hperm.mem_iff.mp he)).2.2.2⟩)
              hes k r]
            simp only [ok_bind]
            have hall : ((sortByKey plainKey entries).all
                (fun e => validEntryName e.1)) = true := by
              rw [List.all_eq_true]
              intro e he
              exact (hents e (hperm.mem_iff.mp he)).2.1
            rw [if_pos hall]
            rw [treeWrite_sortByName hsorted hnames
              (fun e he => (hents e he).2.1)]
  · intro l bs hsz hwf hattr henc k r
    cases l with
    | nil =>
        simp only [encodeEntries, entsFuel, encodeEntriesF] at henc
        injection henc with henc
        subst henc
        rw [show entsFuel [] + k = k + 1 by simp [entsFuel] <;> omega]
        simp only [List.nil_append]
        simp only [decodeEntriesF]
        rw [readUtf8Padded_frame _ _ (by decide) (by decide)]
        simp only [ok_bind]
        rw [if_neg (show ¬(bytes ")" = bytes "entry") by decide)]
        rw [if_pos trivial]
    | cons ent rest =>
        obtain ⟨name, mode, child⟩ := ent
        have hu : utf8Valid name = true :=
          (hattr _ (List.mem_cons_self _ _)).1
        have hnl : name.length < 2 ^ 64 :=
          (hattr _ (List.mem_cons_self _ _)).2.1
        have hmo : modeOk mode child :=
          (hattr _ (List.mem_cons_self _ _)).2.2
        have hwc : WFNode child := hwf _ (List.mem_cons_self _ _)
        have hltc : sizeOf child < n := by
          have : sizeOf child < sizeOf ((name, mode, child) :: rest) := by
            simp; omega
          omega
        have hltr : sizeOf rest < n := by
          have : sizeOf rest < sizeOf ((name, mode, child) :: rest) := by
            simp
          omega
        rw [encodeEntries_cons] at henc
        rw [if_pos hu] at henc
        cases hc : encodeNode child mode with
        | error e => rw [hc] at henc; exact absurd henc (by simp)
        | ok c =>
        cases hr : encodeEntries rest with
        | error e => rw [hc, hr] at henc; exact absurd henc (by simp)
        | ok rbytes =>
        rw [hc, hr] at henc
        injection henc with henc
        subst henc
        rw [show entsFuel ((name, mode, child) :: rest) + k =
          (nodeFuel child + entsFuel rest + k) + 1 by simp [entsFuel] <;> omega]
        simp only [List.append_assoc]
        simp only [decodeEntriesF]
        rw [readUtf8Padded_frame _ _ (by decide) (by decide)]
        simp only [ok_bind]
        rw [if_pos trivial]
        rw [readExpect_frame _ _ (by decide)]; simp only [ok_bind]
        rw [readExpect_frame _ _ (by decide)]; simp only [ok_bind]
        rw [readUtf8Padded_frame _ _ hnl hu]; simp only [ok_bind]
        rw [readExpect_frame _ _ (by decide)]; simp only [ok_bind]
        rw [show nodeFuel child + entsFuel rest + k =
          nodeFuel child + (entsFuel rest + k) by omega]
        rw [(IH _ hltc).1 child mode c (le_refl _) hwc hmo hc
          (entsFuel rest + k)
          (frame (bytes ")") ++ (rbytes ++ (frame (bytes ")") ++ r)))]
        simp only [ok_bind]
        rw [readExpect_frame _ _ (by decide)]; simp only [ok_bind]
        rw [show nodeFuel child + (entsFuel rest + k) =
          entsFuel rest + (nodeFuel child + k) by omega]
        rw [(IH _ hltr).2 rest rbytes (le_refl _)
          (fun e he => hwf e (List.mem_cons_of_mem _ he))
          (fun e he => hattr e (List.mem_cons_of_mem _ he))
          hr (nodeFuel child + k) r]
        simp only [ok_bind]

/-- Specialization of the round-trip core to a root node. -/
theorem decode_encodeNode (obj : GitObj) (mode : Nat) (bs : List Nat)
    (hwf : WFNode obj) (hm : modeOk mode obj)
    (henc : encodeNode obj mode = .ok bs) (k : Nat) (r : List Nat) :
    decodeNodeF (nodeFuel obj + k) (bs ++ r) = .ok (obj, mode, r) :=
  (decode_encode_aux (sizeOf obj)).1 obj mode bs (le_refl _) hwf hm henc k r

theorem frame_length (p : List Nat) :
    (frame p).length = 8 + p.length + padLenOf p.length := by
  simp [frame, toLE_length]
  omega

theorem frame_length_ge (p : List Nat) : 8 ≤ (frame p).length := by
  rw [frame_length]; omega

/-- The canonical fuel is bounded by the length of the encoding: each
parsed node or entry consumes at least eight bytes of input. -/
theorem fuel_le_length_aux (n : Nat) :
    (∀ (obj : GitObj) (mode : Nat) (bs : List Nat), sizeOf obj ≤ n →
      encodeNode obj mode = .ok bs → nodeFuel obj ≤ bs.length) ∧
    (∀ (l : List Ent) (bs : List Nat), sizeOf l ≤ n →
      encodeEntries l = .ok bs → entsFuel l ≤ bs.length + 1) := by
  induction n using Nat.strong_induction_on with
  | _ n IH =>
  constructor
  · intro obj mode bs hsz henc
    cases obj with
    | blob content =>
        have h8 := frame_length_ge (bytes "(")
        simp only [encodeNode, nodeFuel, encodeNodeF] at henc
        by_cases h1 : mode = modeBlobExecutable
        · rw [if_pos h1] at henc
          injection henc with henc
          subst henc
          simp only [List.length_append, nodeFuel]
          omega
        · rw [if_neg h1] at henc
          by_cases h2 : mode = modeBlob
          · rw [if_pos h2] at henc
            injection henc with henc
            subst henc
            simp only [List.length_append, nodeFuel]
            omega
          · rw [if_neg h2] at henc
            by_cases h3 : mode = modeLink
            · rw [if_pos h3] at henc
              injection henc with henc
              subst henc
              simp only [List.length_append, nodeFuel]
              omega
            · rw [if_neg h3] at henc
              exact absurd henc (by simp)
    | tree entries =>
        have hperm : (sortByKey plainKey entries).Perm entries :=
          List.perm_insertionSort _ _
        have hszlt : sizeOf (sortByKey plainKey entries) < n := by
          rw [sizeOf_sortByKey]
          have : sizeOf entries < sizeOf (GitObj.tree entries) := by simp
          omega
        cases hes : encodeEntries (sortByKey plainKey entries) with
        | error e =>
            rw [encodeNode_tree, hes] at henc
            exact absurd henc (by simp [Except.map])
        | ok es =>
            rw [encodeNode_tree, hes] at henc
            simp only [Except.map] at henc
            injection henc with henc
            subst henc
            have hrec := (IH _ hszlt).2 (sortByKey plainKey entries) es
              (le_refl _) hes
            have h8 := frame_length_ge (bytes "(")
            rw [show nodeFuel (GitObj.tree entries) =
              1 + entsFuel entries by simp [nodeFuel]]
            rw [show entsFuel entries =
              entsFuel (sortByKey plainKey entries) from
              (entsFuel_perm hperm).symm]
            simp only [List.length_append]
            omega
  · intro l bs hsz henc
    cases l with
    | nil =>
        simp only [encodeEntries, entsFuel, encodeEntriesF] at henc
        injection henc with henc
        subst henc
        simp [entsFuel]
    | cons ent rest =>
        obtain ⟨name, mode, child⟩ := ent
        have hltc : sizeOf child < n := by
          have : sizeOf child < sizeOf ((name, mode, child) :: rest) := by
            simp <;> omega
          omega
        have hltr : sizeOf rest < n := by
          have : sizeOf rest < sizeOf ((name, mode, child) :: rest) := by
            simp <;> omega
          omega
        rw [encodeEntries_cons] at henc
        by_cases hu : utf8Valid name
        · rw [if_pos hu] at henc
          cases hc : encodeNode child mode with
          | error e => rw [hc] at henc; exact absurd henc (by simp)
          | ok c =>
          cases hr : encodeEntries rest with
          | error e => rw [hc, hr] at henc; exact absurd henc (by simp)
          | ok rbytes =>
          rw [hc, hr] at henc
          injection henc with henc
          subst henc
          have hnc := (IH _ hltc).1 child mode c (le_refl _) hc
          have hnr := (IH _ hltr).2 rest rbytes (le_refl _) hr
          have h8 := frame_length_ge (bytes "entry")
          rw [show entsFuel ((name, mode, child) :: rest) =
            1 + nodeFuel child + entsFuel rest by simp [entsFuel]]
          simp only [List.length_append]
          omega
        · rw [if_neg hu] at henc
          exact absurd henc (by simp)

/-- Decoding an encoded archive (`NarGitDecoder::parse` applied to
`NarGitEncoder::encode_into` output) recovers the same object and filemode
and consumes the whole stream. -/
theorem parseNar_encodeArchive (obj : GitObj) (mode : Nat) (bs : List Nat)
    (hwf : WFNode obj) (hm : modeOk mode obj)
    (henc : encodeArchive obj mode = .ok bs) :
    parseNar bs = .ok (obj, mode, []) := by
  cases hnb : encodeNode obj mode with
  | error e =>
      rw [encodeArchive, hnb] at henc
      exact absurd henc (by simp [Except.map])
  | ok nb =>
      rw [encodeArchive, hnb] at henc
      simp only [Except.map] at henc
      injection henc with henc
      subst henc
      have hfuel : nodeFuel obj ≤ nb.length :=
        (fuel_le_length_aux (sizeOf obj)).1 obj mode nb (le_refl _) hnb
      simp only [parseNar]
      rw [readExpect_frame magic nb (by decide)]
      simp only [ok_bind, List.length_append]
      rw [show (frame magic).length + nb.length + 1 = nodeFuel obj +
        ((frame magic).length + nb.length + 1 - nodeFuel obj) by omega]
      have h := decode_encodeNode obj mode nb hwf hm hnb
        ((frame magic).length + nb.length + 1 - nodeFuel obj) []
      rw [List.append_nil] at h
      exact h

/-- C1: Archive codec round-trip.  For every admissible archive byte
stream, decoding it into (blob, tree) objects and re-encoding the
resulting root (object, mode) reproduces the original archive
byte-for-byte; and for every well-formed stored root of supported mode
(tree, regular blob, executable blob, symlink blob), encoding it and
decoding the result yields the same object and the same mode, consuming
the whole stream. -/
theorem gachix_C1 :
    (∀ bs : List Nat, Admissible bs →
      ∃ (obj : GitObj) (mode : Nat), parseNar bs = .ok (obj, mode, []) ∧
        encodeArchive obj mode = .ok bs) ∧
    (∀ (obj : GitObj) (mode : Nat) (bs : List Nat), WFNode obj →
      modeOk mode obj → encodeArchive obj mode = .ok bs →
      parseNar bs = .ok (obj, mode, [])) := by
  constructor
  · intro bs hadm
    obtain ⟨obj, mode, hwf, hm, henc⟩ := hadm
    exact ⟨obj, mode, parseNar_encodeArchive obj mode bs hwf hm henc, henc⟩
  · intro obj mode bs hwf hm henc
    exact parseNar_encodeArchive obj mode bs hwf hm henc

/-- `c1exObj` is a well-formed stored object. -/
theorem c1exObj_wf : WFNode c1exObj := by
  refine WFNode.tree (by decide) (by decide) ?_ ?_
  · intro e he
    fin_cases he
    · exact ⟨by decide, by decide, by decide, Or.inr (Or.inl rfl)⟩
    · exact ⟨by decide, by decide, by decide, rfl⟩
  · intro e he
    fin_cases he
    · exact WFNode.blob (by decide)
    · refine WFNode.tree (by decide) (by decide) ?_ ?_
      · intro e he
        fin_cases he
        exact ⟨by decide, by decide, by decide, Or.inr (Or.inr rfl)⟩
      · intro e he
        fin_cases he
        exact WFNode.blob (by decide)

set_option maxRecDepth 40000 in
/-- C1 witness: the round trip evaluated on the concrete archive of
`c1exObj`. -/
theorem gachix_C1_witness :
    Admissible c1exBytes ∧
    parseNar c1exBytes = .ok (c1exObj, modeTree, []) := by
  have henc : encodeArchive c1exObj modeTree = .ok c1exBytes := by rfl
  exact ⟨⟨c1exObj, modeTree, c1exObj_wf, rfl, henc⟩,
    gachix_C1.2 c1exObj modeTree c1exBytes c1exObj_wf rfl henc⟩

/-- The machine is deterministic: fuel only decides whether it finishes,
never what it produces. -/
theorem runMachine_det : ∀ (f₁ f₂ : Nat) (stack : List TState)
    (r₁ r₂ : List (List Nat)), runMachine f₁ stack = .ok r₁ →
    runMachine f₂ stack = .ok r₂ → r₁ = r₂ := by
  intro f₁
  induction f₁ with
  | zero => intro f₂ stack r₁ r₂ h₁; exact absurd h₁ (by simp [runMachine])
  | succ f₁ ih =>
      intro f₂ stack r₁ r₂ h₁ h₂
      cases f₂ with
      | zero => exact absurd h₂ (by simp [runMachine])
      | succ f₂ =>
          cases stack with
          | nil =>
              simp only [runMachine] at h₁ h₂
              injection h₁ with h₁
              injection h₂ with h₂
              rw [← h₁, ← h₂]
          | cons s st =>
              simp only [runMachine] at h₁ h₂
              cases hs : stepStream s with
              | error e => rw [hs] at h₁; exact absurd h₁ (by simp [error_bind])
              | ok cp =>
                  rw [hs] at h₁ h₂
                  simp only [ok_bind] at h₁ h₂
                  cases hr₁ : runMachine f₁ (cp.2 ++ st) with
                  | error e =>
                      rw [hr₁] at h₁; exact absurd h₁ (by simp [error_bind])
                  | ok rest₁ =>
                  cases hr₂ : runMachine f₂ (cp.2 ++ st) with
                  | error e =>
                      rw [hr₂] at h₂; exact absurd h₂ (by simp [error_bind])
                  | ok rest₂ =>
                      rw [hr₁] at h₁
                      rw [hr₂] at h₂
                      simp only [ok_bind] at h₁ h₂
                      injection h₁ with h₁
                      injection h₂ with h₂
                      rw [← h₁, ← h₂, ih f₂ _ _ _ hr₁ hr₂]

/-- Running one step on top of a completed run. -/
theorem runMachine_cons {s : TState} {cs : List (List Nat)}
    {pushed stack : List TState} {f : Nat} {res : List (List Nat)}
    (hs : stepStream s = .ok (cs, pushed))
    (hr : runMachine f (pushed ++ stack) = .ok res) :
    runMachine (f + 1) (s :: stack) = .ok (cs ++ res) := by
  simp only [runMachine, hs, ok_bind, hr]

/-- Strong-induction core of the streaming/synchronous equivalence: on a
well-formed node whose synchronous encoding succeeds, the machine run
starting from `StartNode` (with its matching `FinishNode` below it)
completes and its chunks concatenate to the synchronous bytes, whatever
completed run follows on the rest of the stack. -/
theorem stream_encode_aux (n : Nat) :
    (∀ (obj : GitObj) (mode : Nat) (bs : List Nat), sizeOf obj ≤ n →
      WFNode obj → modeOk mode obj → encodeNode obj mode = .ok bs →
      ∀ (stack : List TState) (f₁ : Nat) (out : List (List Nat)),
        runMachine f₁ stack = .ok out →
        ∃ (f₂ : Nat) (cs : List (List Nat)),
          runMachine f₂ (TState.startNode obj mode :: TState.finishNode ::
            stack) = .ok cs ∧ cs.join = bs ++ out.join) ∧
    (∀ (l : List Ent) (bs : List Nat), sizeOf l ≤ n →
      (∀ e ∈ l, WFNode e.2.2) →
      (∀ e ∈ l, utf8Valid e.1 = true ∧ modeOk e.2.1 e.2.2) →
      encodeEntries l = .ok bs →
      ∀ (stack : List TState) (f₁ : Nat) (out : List (List Nat)),
        runMachine f₁ stack = .ok out →
        ∃ (f₂ : Nat) (cs : List (List Nat)),
          runMachine f₂ (TState.processEntries l :: stack) = .ok cs ∧
            cs.join = bs ++ out.join) := by
  induction n using Nat.strong_induction_on with
  | _ n IH =>
  constructor
  · intro obj mode bs hsz hwf hm henc stack f₁ out hrun
    have hfin : runMachine (f₁ + 1) (TState.finishNode :: stack) =
        .ok (frame (bytes ")") :: out) :=
      runMachine_cons (show stepStream TState.finishNode =
        .ok ([frame (bytes ")")], []) from rfl) hrun
    cases obj with
    | blob content =>
        simp only [modeOk] at hm
        rcases hm with rfl | rfl | rfl
        · -- regular blob
          simp only [encodeNode, nodeFuel, encodeNodeF] at henc
          rw [if_pos trivial] at henc
          injection henc with henc
          subst henc
          refine ⟨f₁ + 2, _, runMachine_cons (by rw [stepStream]; rfl) hfin, ?_⟩
          simp [List.append_assoc]
        · -- executable blob
          simp only [encodeNode, nodeFuel, encodeNodeF] at henc
          rw [if_pos trivial] at henc
          injection henc with henc
          subst henc
          refine ⟨f₁ + 2, _, runMachine_cons (by rw [stepStream]; rfl) hfin, ?_⟩
          simp [List.append_assoc]
        · -- symlink blob
          simp only [encodeNode, nodeFuel, encodeNodeF] at henc
          rw [if_pos trivial] at henc
          injection henc with henc
          subst henc
          refine ⟨f₁ + 2, _, runMachine_cons (by rw [stepStream]; rfl) hfin, ?_⟩
          simp [List.append_assoc]
    | tree entries =>
        have hmt : mode = modeTree := hm
        subst hmt
        cases hwf with
        | tree hsorted hnames hents hrec =>
        cases hes : encodeEntries (sortByKey plainKey entries) with
        | error e =>
            rw [encodeNode_tree, hes] at henc
            exact absurd henc (by simp [Except.map])
        | ok es =>
            rw [encodeNode_tree, hes] at henc
            simp only [Except.map] at henc
            injection henc with henc
            subst henc
            have hperm : (sortByKey plainKey entries).Perm entries :=
              List.perm_insertionSort _ _
            have hszlt : sizeOf (sortByKey plainKey entries) < n := by
              rw [sizeOf_sortByKey]
              have : sizeOf entries < sizeOf (GitObj.tree entries) := by simp
              omega
            obtain ⟨f₂, cs₁, hrun₁, hjoin₁⟩ :=
              (IH _ hszlt).2 (sortByKey plainKey entries) es (le_refl _)
                (fun e he => hrec e (hperm.mem_iff.mp he))
                (fun e he =>
                  ⟨(hents e (hperm.mem_iff.mp he)).1,
                   (hents e (hperm.mem_iff.mp he)).2.2.2⟩)
                hes (TState.finishNode :: stack) (f₁ + 1)
                (frame (bytes ")") :: out) hfin
            refine ⟨f₂ + 1, _,
              runMachine_cons (by rw [stepStream]; rw [if_pos rfl]) hrun₁, ?_⟩
            simp only [List.join_append, List.join_cons, List.join_nil,
              hjoin₁]
            simp [List.append_assoc]
  · intro l bs hsz hwf hattr henc stack f₁ out hrun
    cases l with
    | nil =>
        simp only [encodeEntries, entsFuel, encodeEntriesF] at henc
        injection henc with henc
        subst henc
        refine ⟨f₁ + 1, _, runMachine_cons
          (show stepStream (TState.processEntries []) = .ok ([], [])
            from rfl) hrun, ?_⟩
        simp
    | cons ent rest =>
        obtain ⟨name, mode, child⟩ := ent
        have hu : utf8Valid name = true :=
          (hattr _ (List.mem_cons_self _ _)).1
        have hmo : modeOk mode child :=
          (hattr _ (List.mem_cons_self _ _)).2
        have hwc : WFNode child := hwf _ (List.mem_cons_self _ _)
        have hltc : sizeOf child < n := by
          have : sizeOf child < sizeOf ((name, mode, child) :: rest) := by
            simp <;> omega
          omega
        have hltr : sizeOf rest < n := by
          have : sizeOf rest < sizeOf ((name, mode, child) :: rest) := by
            simp <;> omega
          omega
        rw [encodeEntries_cons] at henc
        rw [if_pos hu] at henc
        cases hc : encodeNode child mode with
        | error e => rw [hc] at henc; exact absurd henc (by simp)
        | ok c =>
        cases hr : encodeEntries rest with
        | error e => rw [hc, hr] at henc; exact absurd henc (by simp)
        | ok rbytes =>
        rw [hc, hr] at henc
        injection henc with henc
        subst henc
        obtain ⟨f₂, cs₁, hrun₁, hjoin₁⟩ :=
          (IH _ hltr).2 rest rbytes (le_refl _)
            (fun e he => hwf e (List.mem_cons_of_mem _ he))
            (fun e he => hattr e (List.mem_cons_of_mem _ he))
            hr stack f₁ out hrun
        have hfte : runMachine (f₂ + 1)
            (TState.finishTreeEntry :: TState.processEntries rest :: stack) =
            .ok (frame (bytes ")") :: cs₁) :=
          runMachine_cons (show stepStream TState.finishTreeEntry =
            .ok ([frame (bytes ")")], []) from rfl) hrun₁
        obtain ⟨f₃, cs₂, hrun₂, hjoin₂⟩ :=
          (IH _ hltc).1 child mode c (le_refl _) hwc hmo hc
            (TState.finishTreeEntry :: TState.processEntries rest :: stack)
            (f₂ + 1) (frame (bytes ")") :: cs₁) hfte
        refine ⟨f₃ + 1, _, runMachine_cons
          (show stepStream (TState.processEntries ((name, mode, child) :: rest)) =
            .ok ([frame (bytes "entry"), frame (bytes "("),
                  frame (bytes "name"), frame name, frame (bytes "node")],
              [TState.startNode child mode, TState.finishNode,
               TState.finishTreeEntry, TState.processEntries rest])
            from rfl) hrun₂, ?_⟩
        simp only [List.join_append, List.join_cons, List.join_nil, hjoin₂,
          hjoin₁]
        simp [List.append_assoc]

/-- C2: Streaming/synchronous encoder equivalence.  For every well-formed
stored root (object, mode) whose synchronous encoding succeeds, the
streaming producer polled to completion succeeds, and the concatenation of
the byte chunks it yields is identical to the synchronous encoder's
output; moreover every completed stream run yields exactly those bytes. -/
theorem gachix_C2 (obj : GitObj) (mode : Nat) (bs : List Nat)
    (hwf : WFNode obj) (hm : modeOk mode obj)
    (henc : encodeArchive obj mode = .ok bs) :
    (∃ (fuel : Nat) (chunks : List (List Nat)),
      runStream fuel obj mode = .ok chunks ∧ chunks.join = bs) ∧
    (∀ (fuel : Nat) (chunks : List (List Nat)),
      runStream fuel obj mode = .ok chunks → chunks.join = bs) := by
  cases hnb : encodeNode obj mode with
  | error e =>
      rw [encodeArchive, hnb] at henc
      exact absurd henc (by simp [Except.map])
  | ok nb =>
      rw [encodeArchive, hnb] at henc
      simp only [Except.map] at henc
      injection henc with henc
      subst henc
      obtain ⟨f₂, cs, hrun, hjoin⟩ :=
        (stream_encode_aux (sizeOf obj)).1 obj mode nb (le_refl _) hwf hm hnb
          [] 1 [] (show runMachine 1 [] = .ok [] from rfl)
      simp only [List.join_nil, List.append_nil] at hjoin
      constructor
      · refine ⟨f₂, frame magic :: cs, ?_, ?_⟩
        · simp only [runStream, hrun, Except.map]
        · simp [hjoin]
      · intro fuel chunks hstream
        simp only [runStream] at hstream
        cases hm' : runMachine fuel
            [TState.startNode obj mode, TState.finishNode] with
        | error e => rw [hm'] at hstream; exact absurd hstream (by simp [Except.map])
        | ok cs' =>
            rw [hm'] at hstream
            simp only [Except.map] at hstream
            injection hstream with hstream
            subst hstream
            rw [runMachine_det fuel f₂ _ cs' cs hm' hrun]
            simp [hjoin]

/-- All chunks a single machine step enqueues are complete length-framed
records. -/
theorem stepStream_frames {s : TState} {cs : List (List Nat)}
    {pushed : List TState} (hs : stepStream s = .ok (cs, pushed)) :
    ∀ c ∈ cs, ∃ p, c = frame p := by
  cases s with
  | startNode obj mode =>
      cases obj with
      | tree entries =>
          simp only [stepStream] at hs
          by_cases h1 : mode = modeTree
          · rw [if_pos h1] at hs
            injection hs with hs
            injection hs with hs1 hs2
            subst hs1
            intro c hc
            simp only [List.mem_cons, List.not_mem_nil, or_false] at hc
            rcases hc with rfl | rfl | rfl <;> exact ⟨_, rfl⟩
          · rw [if_neg h1] at hs
            exact absurd hs (by simp)
      | blob content =>
          simp only [stepStream] at hs
          by_cases h1 : mode = modeTree
          · rw [if_pos h1] at hs
            exact absurd hs (by simp)
          · rw [if_neg h1] at hs
            by_cases h2 : mode = modeBlobExecutable
            · rw [if_pos h2] at hs
              injection hs with hs
              injection hs with hs1 hs2
              subst hs1
              intro c hc
              simp only [List.mem_cons, List.not_mem_nil, or_false] at hc
              rcases hc with rfl | rfl | rfl | rfl | rfl | rfl | rfl <;>
                exact ⟨_, rfl⟩
            · rw [if_neg h2] at hs
              by_cases h3 : mode = modeBlob
              · rw [if_pos h3] at hs
                injection hs with hs
                injection hs with hs1 hs2
                subst hs1
                intro c hc
                simp only [List.mem_cons, List.not_mem_nil, or_false] at hc
                rcases hc with rfl | rfl | rfl | rfl | rfl <;> exact ⟨_, rfl⟩
              · rw [if_neg h3] at hs
                by_cases h4 : mode = modeLink
                · rw [if_pos h4] at hs
                  injection hs with hs
                  injection hs with hs1 hs2
                  subst hs1
                  intro c hc
                  simp only [List.mem_cons, List.not_mem_nil, or_false] at hc
                  rcases hc with rfl | rfl | rfl | rfl | rfl <;> exact ⟨_, rfl⟩
                · rw [if_neg h4] at hs
                  exact absurd hs (by simp)
  | processEntries l =>
      cases l with
      | nil =>
          injection hs with hs
          injection hs with hs1 hs2
          subst hs1
          intro c hc
          exact absurd hc (by simp)
      | cons ent rest =>
          obtain ⟨name, mode, child⟩ := ent
          injection hs with hs
          injection hs with hs1 hs2
          subst hs1
          intro c hc
          simp only [List.mem_cons, List.not_mem_nil, or_false] at hc
          rcases hc with rfl | rfl | rfl | rfl | rfl <;> exact ⟨_, rfl⟩
  | finishTreeEntry =>
      injection hs with hs
      injection hs with hs1 hs2
      subst hs1
      intro c hc
      simp only [List.mem_cons, List.not_mem_nil, or_false] at hc
      rcases hc with rfl <;> exact ⟨_, rfl⟩
  | finishNode =>
      injection hs with hs
      injection hs with hs1 hs2
      subst hs1
      intro c hc
      simp only [List.mem_cons, List.not_mem_nil, or_false] at hc
      rcases hc with rfl <;> exact ⟨_, rfl⟩

/-- All chunks of a completed machine run are complete length-framed
records. -/
theorem runMachine_frames : ∀ (f : Nat) (stack : List TState)
    (cs : List (List Nat)), runMachine f stack = .ok cs →
    ∀ c ∈ cs, ∃ p, c = frame p := by
  intro f
  induction f with
  | zero => intro stack cs h; exact absurd h (by simp [runMachine])
  | succ f ih =>
      intro stack cs h
      cases stack with
      | nil =>
          simp only [runMachine] at h
          injection h with h
          subst h
          intro c hc
          exact absurd hc (by simp)
      | cons s st =>
          simp only [runMachine] at h
          cases hs : stepStream s with
          | error e => rw [hs] at h; exact absurd h (by simp [error_bind])
          | ok cp =>
              rw [hs] at h
              simp only [ok_bind] at h
              cases hr : runMachine f (cp.2 ++ st) with
              | error e => rw [hr] at h; exact absurd h (by simp [error_bind])
              | ok rest =>
                  rw [hr] at h
                  simp only [ok_bind] at h
                  injection h with h
                  subst h
                  intro c hc
                  rcases List.mem_append.mp hc with hc | hc
                  · exact stepStream_frames (by rw [hs]) c hc
                  · exact ih _ _ hr c hc

/-- After a payload and its padding the record length is a multiple of
eight. -/
theorem frame_length_mod (p : List Nat) : (frame p).length % 8 = 0 := by
  rw [frame_length]
  simp only [padLenOf, PAD_LEN]
  by_cases h : p.length % 8 > 0
  · rw [if_pos h]; omega
  · rw [if_neg h]; omega

/-- C10: every item yielded by the streaming archive producer is one
complete length-framed record — the 8-byte little-endian length prefix,
the full payload and its zero padding to a multiple of eight appear
together in a single chunk; in particular a blob root's entire contents
are emitted as one chunk. -/
theorem gachix_C10 (fuel : Nat) (obj : GitObj) (mode : Nat)
    (chunks : List (List Nat)) (h : runStream fuel obj mode = .ok chunks) :
    (∀ c ∈ chunks, ∃ p, c = frame p ∧
      c = toLE 8 p.length ++ p ++ List.replicate (padLenOf p.length) 0 ∧
      c.length % 8 = 0) ∧
    (∀ content : List Nat, obj = GitObj.blob content →
      frame content ∈ chunks) := by
  simp only [runStream] at h
  cases hm' : runMachine fuel [TState.startNode obj mode, TState.finishNode]
      with
  | error e => rw [hm'] at h; exact absurd h (by simp [Except.map])
  | ok cs =>
      rw [hm'] at h
      simp only [Except.map] at h
      injection h with h
      subst h
      constructor
      · intro c hc
        rcases List.mem_cons.mp hc with rfl | hc
        · exact ⟨magic, rfl, rfl, frame_length_mod magic⟩
        · obtain ⟨p, hp⟩ := runMachine_frames fuel _ cs hm' c hc
          exact ⟨p, hp, hp, hp ▸ frame_length_mod p⟩
      · intro content hobj
        subst hobj
        cases fuel with
        | zero => exact absurd hm' (by simp [runMachine])
        | succ f =>
            simp only [runMachine] at hm'
            by_cases h1 : mode = modeTree
            · rw [stepStream, if_pos h1] at hm'
              exact absurd hm' (by simp [error_bind])
            · by_cases h2 : mode = modeBlobExecutable
              · rw [stepStream, if_neg h1, if_pos h2] at hm'
                simp only [ok_bind] at hm'
                cases hr : runMachine f
                    ([] ++ [TState.finishNode]) with
                | error e =>
                    rw [hr] at hm'; exact absurd hm' (by simp [error_bind])
                | ok rest =>
                    rw [hr] at hm'
                    simp only [ok_bind] at hm'
                    injection hm' with hm'
                    subst hm'
                    simp
              · by_cases h3 : mode = modeBlob
                · rw [stepStream, if_neg h1, if_pos h3] at hm'
                  rw [if_neg (by rw [h3]; decide)] at hm'
                  simp only [ok_bind] at hm'
                  cases hr : runMachine f
                      ([] ++ [TState.finishNode]) with
                  | error e =>
                      rw [hr] at hm'; exact absurd hm' (by simp [error_bind])
                  | ok rest =>
                      rw [hr] at hm'
                      simp only [ok_bind] at hm'
                      injection hm' with hm'
                      subst hm'
                      simp
                · by_cases h4 : mode = modeLink
                  · rw [stepStream, if_neg h1, if_neg h2, if_neg h3,
                      if_pos h4] at hm'
                    simp only [ok_bind] at hm'
                    cases hr : runMachine f
                        ([] ++ [TState.finishNode]) with
                    | error e =>
                        rw [hr] at hm'
                        exact absurd hm' (by simp [error_bind])
                    | ok rest =>
                        rw [hr] at hm'
                        simp only [ok_bind] at hm'
                        injection hm' with hm'
                        subst hm'
                        simp
                  · rw [stepStream, if_neg h1, if_neg h2, if_neg h3,
                      if_neg h4] at hm'
                    exact absurd hm' (by simp [error_bind])

set_option maxRecDepth 80000 in
/-- C2 witness: the stream on the concrete tree `c1exObj` joins to the
synchronous encoder's bytes. -/
theorem gachix_C2_witness : c2chunks.join = c1exBytes :=
  (gachix_C2 c1exObj modeTree c1exBytes c1exObj_wf rfl (by rfl)).2
    64 c2chunks (by rfl)

set_option maxRecDepth 40000 in
/-- C10 witness: the chunk framing property evaluated on a concrete blob
stream. -/
theorem gachix_C10_witness :
    (∀ c ∈ c10chunks, ∃ p, c = frame p ∧
      c = toLE 8 p.length ++ p ++ List.replicate (padLenOf p.length) 0 ∧
      c.length % 8 = 0) ∧
    frame (bytes "hi") ∈ c10chunks := by
  have h := gachix_C10 8 (GitObj.blob (bytes "hi")) modeBlob c10chunks
    (by rfl)
  exact ⟨h.1, h.2 (bytes "hi") rfl⟩

/-- C8 counterexample: `NixPath::new` accepts a path whose 32-character
hash portion lies outside the restricted base-32 alphabet, so the parser
does not reject on the alphabet as the claim states. -/
theorem gachix_C8_counterexample :
    nixPathNew c8badInput = .ok c8badParsed ∧
    c8badParsed.hash.length = 32 ∧
    'A' ∈ c8badParsed.hash ∧ 'A' ∉ nixBase32Chars :=
  ⟨by rfl, by decide, by decide, by decide⟩

/-- C8 (amended): the parser rejects exactly the inputs whose trailing
path component is missing or contains no `-`, or whose portion before the
first `-` is not exactly 32 characters long; the characters of the hash
are not restricted to the base-32 alphabet.  Accepted paths carry the
trimmed full path and the split hash/name. -/
theorem gachix_C8 (input : List Char) :
    (∀ (p : NixPath), nixPathNew input = .ok p →
      p.hash.length = 32 ∧ p.path = trimChars input ∧
      (∃ stem, fileName input = some stem ∧
        splitOnceChar '-' stem = some (p.hash, p.name))) ∧
    (∀ stem hash nm, fileName input = some stem →
      splitOnceChar '-' stem = some (hash, nm) → hash.length = 32 →
      nixPathNew input = .ok ⟨trimChars input, hash, nm⟩) ∧
    (fileName input = none → (nixPathNew input).isOk = false) ∧
    (∀ stem, fileName input = some stem → splitOnceChar '-' stem = none →
      (nixPathNew input).isOk = false) ∧
    (∀ stem hash nm, fileName input = some stem →
      splitOnceChar '-' stem = some (hash, nm) → hash.length ≠ 32 →
      (nixPathNew input).isOk = false) := by
  refine ⟨?_, ?_, ?_, ?_, ?_⟩
  · intro p hp
    cases hfn : fileName input with
    | none =>
        simp only [nixPathNew, hfn] at hp
        exact absurd hp (by simp)
    | some stem =>
        cases hsp : splitOnceChar '-' stem with
        | none =>
            simp only [nixPathNew, hfn, hsp] at hp
            exact absurd hp (by simp)
        | some pr =>
            obtain ⟨hash, nm⟩ := pr
            simp only [nixPathNew, hfn, hsp] at hp
            by_cases hl : hash.length = 32
            · rw [if_pos hl] at hp
              injection hp with hp
              subst hp
              exact ⟨hl, rfl, stem, rfl, hsp⟩
            · rw [if_neg hl] at hp
              exact absurd hp (by simp)
  · intro stem hash nm hfn hsp hl
    simp only [nixPathNew, hfn, hsp]
    rw [if_pos hl]
  · intro hfn
    simp [nixPathNew, hfn, Except.isOk, Except.toBool]
  · intro stem hfn hsp
    simp [nixPathNew, hfn, hsp, Except.isOk, Except.toBool]
  · intro stem hash nm hfn hsp hl
    simp only [nixPathNew, hfn, hsp]
    rw [if_neg hl]
    simp [Except.isOk, Except.toBool]

/-- C8 witness: the amended characterization evaluated on a rejected input
(no `-` in the component), an accepted input, and a rejected short
hash. -/
theorem gachix_C8_witness :
    nixPathNew c8goodInput =
      .ok ⟨c8goodInput, "iylhaki6573cpsvspivjfsim700n46r3".toList,
        "kitty-0.43.1".toList⟩ ∧
    (nixPathNew "/nix/store/short-x".toList).isOk = false ∧
    (nixPathNew "nodash".toList).isOk = false := by
  refine ⟨?_, ?_, ?_⟩
  · have h := (gachix_C8 c8goodInput).2.1
      "iylhaki6573cpsvspivjfsim700n46r3-kitty-0.43.1".toList
      "iylhaki6573cpsvspivjfsim700n46r3".toList "kitty-0.43.1".toList
      (by decide) (by decide) (by decide)
    have ht : trimChars c8goodInput = c8goodInput := by decide
    rw [h, ht]
  · exact (gachix_C8 _).2.2.2.2
      "short-x".toList "short".toList "x".toList
      (by decide) (by decide) (by decide)
  · exact (gachix_C8 _).2.2.2.1 "nodash".toList (by decide) (by decide)

theorem foldl_renderLines (l : List (List Char × List Char))
    (acc : List Char) :
    l.foldl (fun acc kv => acc ++ kv.1 ++ ": ".toList ++ kv.2 ++ ['\n']) acc
      = acc ++ renderLines l := by
  induction l generalizing acc with
  | nil => simp [renderLines]
  | cons kv rest ih =>
      obtain ⟨k, v⟩ := kv
      simp only [List.foldl, renderLines, ih]
      simp

theorem splitOnChar_ne_nil (c : Char) (s : List Char) :
    splitOnChar c s ≠ [] := by
  cases s with
  | nil => simp [splitOnChar]
  | cons x xs =>
      simp only [splitOnChar]
      by_cases hx : x = c
      · simp [hx]
      · simp [hx]

theorem splitOnChar_not_mem (c : Char) (s : List Char) (h : c ∉ s) :
    splitOnChar c s = [s] := by
  induction s with
  | nil => rfl
  | cons x xs ih =>
      simp only [List.mem_cons, not_or] at h
      simp only [splitOnChar, ih h.2]
      rw [if_neg (fun hx => h.1 hx.symm)]
      simp [List.headI]

theorem splitOnChar_append_sep (c : Char) (a rest : List Char)
    (h : c ∉ a) :
    splitOnChar c (a ++ c :: rest) = a :: splitOnChar c rest := by
  induction a with
  | nil =>
      simp [splitOnChar]
  | cons x xs ih =>
      simp only [List.mem_cons, not_or] at h
      have ih2 := ih h.2
      simp only [List.cons_append, splitOnChar]
      rw [if_neg (fun hx => h.1 hx.symm)]
      simp only [List.append_eq]
      rw [ih2]
      simp [List.headI]

theorem splitOnChar_renderLines (l : List (List Char × List Char))
    (h : ∀ kv ∈ l, '\n' ∉ kv.1 ∧ '\n' ∉ kv.2) :
    splitOnChar '\n' (renderLines l)
      = l.map (fun kv => kv.1 ++ ": ".toList ++ kv.2) ++ [[]] := by
  induction l with
  | nil => rfl
  | cons kv rest ih =>
      obtain ⟨k, v⟩ := kv
      have hk := (h (k, v) (List.mem_cons_self _ _)).1
      have hv := (h (k, v) (List.mem_cons_self _ _)).2
      have hline : renderLines ((k, v) :: rest)
          = (k ++ ": ".toList ++ v) ++ '\n' :: renderLines rest := by
        simp [renderLines]
      rw [hline, splitOnChar_append_sep '\n' _ _ (by
        intro hmem
        rcases List.mem_append.1 hmem with hm | hm
        · rcases List.mem_append.1 hm with hm | hm
          · exact hk hm
          · revert hm; decide
        · exact hv hm)]
      rw [ih (fun kv hkv => h kv (List.mem_cons_of_mem _ hkv))]
      simp

theorem keys_no_newline : ∀ k ∈ KEYS, '\n' ∉ k := by decide

set_option maxRecDepth 20000 in
/-- C7 counterexample: with no compression type the emitted `Compression`
line carries the value `none`, not the empty string the claim requires for
absent optional values. -/
theorem gachix_C7_counterexample :
    c7ex.compression_type = none ∧
    (splitOnChar '\n' (narInfoToString c7ex))[2]?
      = some ("Compression: none".toList) ∧
    "Compression: none".toList ≠ "Compression: ".toList := by decide

/-- C7 (amended): serialization emits exactly one `Key: value` line per
key in the order StorePath, URL, Compression, FileHash, FileSize, NarHash,
NarSize, References, Deriver, Sig.  The reference list is joined by a
single space (empty list → empty string) and absent deriver and signature
are emitted as empty strings, but an absent compression type is emitted as
the string `none` and an absent URL as `nar/{key}.nar`. -/
theorem gachix_C7 (n : NarInfo)
    (h : ∀ v ∈ narInfoValues n, '\n' ∉ v) :
    splitOnChar '\n' (narInfoToString n) =
      [ "StorePath: ".toList ++ n.store_path.path,
        "URL: ".toList ++ n.url.getD ("nar/".toList ++ n.key ++ ".nar".toList),
        "Compression: ".toList ++ n.compression_type.getD "none".toList,
        "FileHash: ".toList ++ n.file_hash,
        "FileSize: ".toList ++ natToDec n.file_size,
        "NarHash: ".toList ++ n.nar_hash,
        "NarSize: ".toList ++ natToDec n.nar_size,
        "References: ".toList ++ List.intercalate [' '] (n.references.map stem),
        "Deriver: ".toList ++ (match n.deriver with | some d => stem d | none => []),
        "Sig: ".toList ++ n.signature.getD [],
        [] ] := by
  have hren : narInfoToString n = renderLines (KEYS.zip (narInfoValues n)) := by
    simp only [narInfoToString, foldl_renderLines, List.nil_append]
  rw [hren, splitOnChar_renderLines _ ?_]
  · simp only [KEYS, narInfoValues, List.map, List.zip, List.zipWith]
    rfl
  · intro kv hkv
    obtain ⟨k, v⟩ := kv
    obtain ⟨hk, hv⟩ := List.of_mem_zip hkv
    exact ⟨keys_no_newline k hk, h v hv⟩

set_option maxRecDepth 20000 in
/-- C7 witness: the amended emission theorem evaluated on `c7w`. -/
theorem gachix_C7_witness :
    (∀ v ∈ narInfoValues c7w, '\n' ∉ v) ∧
    splitOnChar '\n' (narInfoToString c7w) =
      [ "StorePath: /nix/store/aaaaaaaaaaaaaaaaaaaaaaaaaaaaaaaa-pkg-1.0".toList,
        "URL: nar/k0.nar.xz".toList,
        "Compression: xz".toList,
        "FileHash: sha256:fh".toList,
        "FileSize: 123".toList,
        "NarHash: sha256:nh".toList,
        "NarSize: 456".toList,
        ("References: bbbbbbbbbbbbbbbbbbbbbbbbbbbbbbbb-dep-2.1 " ++
          "cccccccccccccccccccccccccccccccc-lib-3").toList,
        "Deriver: dddddddddddddddddddddddddddddddd-pkg-1.0.drv".toList,
        "Sig: cache:sig==".toList,
        [] ] := by
  refine ⟨by decide, ?_⟩
  rw [gachix_C7 c7w (by decide)]
  decide

/-! ### Lookup and reference-name lemmas -/


theorem lookupA_cons_pos {κ β : Type} [DecidableEq κ]
    (x : κ × β) (l : List (κ × β)) (k : κ) (hx : x.1 = k) :
    lookupA (x :: l) k = some x.2 := by
  simp [lookupA, hx]

theorem lookupA_cons_neg {κ β : Type} [DecidableEq κ]
    (x : κ × β) (l : List (κ × β)) (k : κ) (hx : ¬ x.1 = k) :
    lookupA (x :: l) k = lookupA l k := by
  simp [lookupA, hx]

theorem lookupA_append_some {κ β : Type} [DecidableEq κ]
    (l1 l2 : List (κ × β)) (k : κ) (v : β) (h : lookupA l1 k = some v) :
    lookupA (l1 ++ l2) k = some v := by
  induction l1 with
  | nil => simp [lookupA] at h
  | cons x l1 ih =>
      by_cases hx : x.1 = k
      · rw [lookupA_cons_pos x l1 k hx] at h
        rw [List.cons_append, lookupA_cons_pos x _ k hx]
        exact h
      · rw [lookupA_cons_neg x l1 k hx] at h
        rw [List.cons_append, lookupA_cons_neg x _ k hx]
        exact ih h

theorem lookupA_append_none {κ β : Type} [DecidableEq κ]
    (l1 l2 : List (κ × β)) (k : κ) (h : lookupA l1 k = none) :
    lookupA (l1 ++ l2) k = lookupA l2 k := by
  induction l1 with
  | nil => simp
  | cons x l1 ih =>
      by_cases hx : x.1 = k
      · rw [lookupA_cons_pos x l1 k hx] at h
        exact absurd h (by simp)
      · rw [lookupA_cons_neg x l1 k hx] at h
        rw [List.cons_append, lookupA_cons_neg x _ k hx]
        exact ih h

theorem lookupA_singleton {κ β : Type} [DecidableEq κ] (k : κ) (v : β) :
    lookupA [(k, v)] k = some v := by
  simp [lookupA, List.find?]

theorem lookupA_singleton_ne {κ β : Type} [DecidableEq κ]
    (k' k : κ) (v : β) (h : k' ≠ k) : lookupA [(k', v)] k = none := by
  simp [lookupA, List.find?, h]

theorem lookupA_snoc_ne {κ β : Type} [DecidableEq κ]
    (l : List (κ × β)) (k' k : κ) (v : β) (h : k' ≠ k) :
    lookupA (l ++ [(k', v)]) k = lookupA l k := by
  cases hl : lookupA l k with
  | some w => exact lookupA_append_some l _ k w hl
  | none => rw [lookupA_append_none l _ k hl, lookupA_singleton_ne k' k v h]

theorem lookupA_snoc_self {κ β : Type} [DecidableEq κ]
    (l : List (κ × β)) (k : κ) (v : β) (h : lookupA l k = none) :
    lookupA (l ++ [(k, v)]) k = some v := by
  rw [lookupA_append_none l _ k h, lookupA_singleton]

theorem lookupA_bound_none {β : Type} (l : List (Nat × β)) (n : Nat)
    (h : ∀ x ∈ l, x.1 < n) : lookupA l n = none := by
  induction l with
  | nil => rfl
  | cons x l ih =>
      have hx : x.1 ≠ n := Nat.ne_of_lt (h x (List.mem_cons_self _ _))
      rw [lookupA_cons_neg x l n hx]
      exact ih (fun y hy => h y (List.mem_cons_of_mem _ hy))

theorem resultRef_inj (h1 h2 : List Char) (h : resultRef h1 = resultRef h2) :
    h1 = h2 := by
  simp only [resultRef, packageRef, List.append_assoc] at h
  exact List.append_cancel_right (List.append_cancel_left h)

theorem resultRef_ne_narinfoRef (h1 h2 : List Char) :
    resultRef h1 ≠ narinfoRef h2 := by
  intro h
  have hr := congrArg List.reverse h
  rw [resultRef, narinfoRef, List.reverse_append, List.reverse_append] at hr
  have e1 : "/result".toList.reverse = 't' :: "luser/".toList := by decide
  have e2 : "/narinfo".toList.reverse = 'o' :: "fniran/".toList := by decide
  rw [e1, e2, List.cons_append, List.cons_append] at hr
  injection hr with hc _
  exact absurd hc (by decide)

/-! ### Growth and invariant-stability lemmas -/


theorem grows_refl (s : GState) : grows s s :=
  ⟨⟨[], by simp⟩, ⟨[], by simp⟩, ⟨[], by simp⟩, ⟨[], by simp⟩, le_refl _⟩

theorem grows_trans {s t u : GState} (h1 : grows s t) (h2 : grows t u) :
    grows s u := by
  obtain ⟨⟨a1, e1⟩, ⟨a2, e2⟩, ⟨a3, e3⟩, ⟨a4, e4⟩, hn⟩ := h1
  obtain ⟨⟨b1, f1⟩, ⟨b2, f2⟩, ⟨b3, f3⟩, ⟨b4, f4⟩, hm⟩ := h2
  exact ⟨⟨a1 ++ b1, by rw [f1, e1, List.append_assoc]⟩,
    ⟨a2 ++ b2, by rw [f2, e2, List.append_assoc]⟩,
    ⟨a3 ++ b3, by rw [f3, e3, List.append_assoc]⟩,
    ⟨a4 ++ b4, by rw [f4, e4, List.append_assoc]⟩, le_trans hn hm⟩

theorem findRefS_mono {s s' : GState} (hg : grows s s') {n : List Char}
    {o : Nat} (h : findRefS s n = some o) : findRefS s' n = some o := by
  obtain ⟨⟨d, e⟩, _, _, _, _⟩ := hg
  rw [findRefS, e]
  exact lookupA_append_some _ _ _ _ h

theorem lookupCommit_mono {s s' : GState} (hg : grows s s') {o : Nat}
    {cm : Commit} (h : lookupCommit s o = some cm) :
    lookupCommit s' o = some cm := by
  obtain ⟨_, ⟨d, e⟩, _, _, _⟩ := hg
  rw [lookupCommit, e]
  exact lookupA_append_some _ _ _ _ h

theorem lookupBlob_mono {s s' : GState} (hg : grows s s') {o : Nat}
    {b : List Char} (h : lookupBlob s o = some b) :
    lookupBlob s' o = some b := by
  obtain ⟨_, _, ⟨d, e⟩, _, _⟩ := hg
  rw [lookupBlob, e]
  exact lookupA_append_some _ _ _ _ h

theorem C4prop_mono {s s' : GState} (hg : grows s s') {h : List Char}
    {c : Nat} (hp : C4prop s h c) : C4prop s' h c := by
  obtain ⟨ni, bo, cm, h1, h2, h3, h4⟩ := hp
  exact ⟨ni, bo, cm, findRefS_mono hg h1, lookupBlob_mono hg h2,
    lookupCommit_mono hg h3,
    h4.imp (fun _ _ hdep => findRefS_mono hg hdep)⟩

/-- Every prefix of `l ++ [x]` is a prefix of `l` or the whole list. -/
theorem prefix_snoc {α : Type} (p l : List α) (x : α) (h : p <+: l ++ [x]) :
    p <+: l ∨ p = l ++ [x] := by
  obtain ⟨t, ht⟩ := h
  rcases t.eq_nil_or_concat with rfl | ⟨t', y, rfl⟩
  · right
    rw [← ht, List.append_nil]
  · left
    rw [List.concat_eq_append, ← List.append_assoc] at ht
    obtain ⟨h1, _⟩ := List.append_inj' ht rfl
    exact ⟨t', h1⟩

theorem refsOK_snoc_narinfo {l : List (List Char × Nat)} (hOK : refsOK l)
    (h0 : List Char) (o : Nat) : refsOK (l ++ [(narinfoRef h0, o)]) := by
  intro h hres
  cases hl : lookupA l (resultRef h) with
  | some v =>
      have := hOK h (by rw [hl]; rfl)
      cases hn : lookupA l (narinfoRef h) with
      | none => rw [hn] at this; exact absurd this (by simp)
      | some w => rw [lookupA_append_some l _ _ w hn]; rfl
  | none =>
      rw [lookupA_snoc_ne l _ _ o
        (fun he => resultRef_ne_narinfoRef h h0 he.symm), hl] at hres
      exact absurd hres (by simp)

theorem refsOK_snoc_result {l : List (List Char × Nat)} (hOK : refsOK l)
    (h0 : List Char) (o : Nat)
    (hn : (lookupA l (narinfoRef h0)).isSome) :
    refsOK (l ++ [(resultRef h0, o)]) := by
  intro h hres
  have hnar : ∀ h', (lookupA l (narinfoRef h')).isSome →
      (lookupA (l ++ [(resultRef h0, o)]) (narinfoRef h')).isSome := by
    intro h' hs
    cases hx : lookupA l (narinfoRef h') with
    | none => rw [hx] at hs; exact absurd hs (by simp)
    | some w => rw [lookupA_append_some l _ _ w hx]; rfl
  cases hl : lookupA l (resultRef h) with
  | some v => exact hnar h (hOK h (by rw [hl]; rfl))
  | none =>
      by_cases he : h0 = h
      · exact hnar h (he ▸ hn)
      · rw [lookupA_snoc_ne l _ _ o
          (fun hx => he (resultRef_inj h0 h hx)), hl] at hres
        exact absurd hres (by simp)

theorem prefixInv_snoc_narinfo {l : List (List Char × Nat)}
    (hInv : prefixInv l) (h0 : List Char) (o : Nat) :
    prefixInv (l ++ [(narinfoRef h0, o)]) := by
  intro p hp
  rcases prefix_snoc p l _ hp with hpl | rfl
  · exact hInv p hpl
  · exact refsOK_snoc_narinfo (hInv l (List.prefix_refl l)) h0 o

theorem prefixInv_snoc_result {l : List (List Char × Nat)}
    (hInv : prefixInv l) (h0 : List Char) (o : Nat)
    (hn : (lookupA l (narinfoRef h0)).isSome) :
    prefixInv (l ++ [(resultRef h0, o)]) := by
  intro p hp
  rcases prefix_snoc p l _ hp with hpl | rfl
  · exact hInv p hpl
  · exact refsOK_snoc_result (hInv l (List.prefix_refl l)) h0 o hn

/-! ### One-step lemmas for the ingest primitives -/


theorem addRef_ok {s : GState} {name : List Char} {oid : Nat} {s2 : GState}
    (h : addRef s name oid = .ok s2) :
    findRefS s name = none ∧
    s2.refs = s.refs ++ [(name, oid)] ∧ s2.commits = s.commits ∧
    s2.blobs = s.blobs ∧ s2.trees = s.trees ∧ s2.nextOid = s.nextOid := by
  simp only [addRef] at h
  by_cases hs : (findRefS s name).isSome
  · rw [if_pos hs] at h
    exact absurd h (by simp)
  · rw [if_neg hs] at h
    injection h with h
    subst h
    exact ⟨Option.not_isSome_iff_eq_none.mp hs, rfl, rfl, rfl, rfl, rfl⟩

theorem doCommit_ok {s : GState} {tree : Nat} {parents : List Nat}
    {msg : List Char} {r : Nat × GState}
    (h : doCommit s tree parents msg = .ok r) :
    r.1 = s.nextOid ∧ tree ∈ s.trees ∧
    (∀ p ∈ parents, (lookupCommit s p).isSome) ∧
    r.2.refs = s.refs ∧
    r.2.commits = s.commits ++ [(s.nextOid, ⟨tree, parents, msg⟩)] ∧
    r.2.blobs = s.blobs ∧ r.2.trees = s.trees ∧
    r.2.nextOid = s.nextOid + 1 := by
  simp only [doCommit] at h
  by_cases h1 : tree ∈ s.trees
  · rw [if_pos h1] at h
    by_cases h2 : parents.all (fun p => (lookupCommit s p).isSome) = true
    · rw [if_pos h2] at h
      injection h with h
      subst h
      exact ⟨rfl, h1, fun p hp => List.all_eq_true.mp h2 p hp,
        rfl, rfl, rfl, rfl, rfl⟩
    · rw [if_neg h2] at h
      exact absurd h (by simp)
  · rw [if_neg h1] at h
    exact absurd h (by simp)

theorem mkNarInfo_ok {sp : NixPath} {key : List Char} {pi : PathInfo}
    {ni : NarInfo} (h : mkNarInfo sp key pi = .ok ni) :
    ni.store_path = sp := by
  simp only [mkNarInfo] at h
  cases hd : (match pi.deriver with
      | none => Except.ok none
      | some dstr => (nixPathNew dstr).map some :
        Except String (Option NixPath)) with
  | error e => rw [hd, error_bind] at h; exact absurd h (by simp)
  | ok deriv =>
      rw [hd, ok_bind] at h
      cases hr : mapNixPaths pi.references with
      | error e => rw [hr, error_bind] at h; exact absurd h (by simp)
      | ok refs =>
          rw [hr, ok_bind] at h
          injection h with h
          subst h
          rfl

theorem addNarinfo_ok {sp : NixPath} {key : List Char} {pi : PathInfo}
    {s : GState} {r0 : NarInfo × GState}
    (h : addNarinfo sp key pi s = .ok r0) :
    mkNarInfo sp key pi = .ok r0.1 ∧
    findRefS s (narinfoRef sp.hash) = none ∧
    r0.2.refs = s.refs ++ [(narinfoRef sp.hash, s.nextOid)] ∧
    r0.2.commits = s.commits ∧
    r0.2.blobs = s.blobs ++ [(s.nextOid, narInfoToString r0.1)] ∧
    r0.2.trees = s.trees ∧
    r0.2.nextOid = s.nextOid + 1 := by
  simp only [addNarinfo] at h
  cases hmk : mkNarInfo sp key pi with
  | error e => rw [hmk, error_bind] at h; exact absurd h (by simp)
  | ok ni =>
      rw [hmk, ok_bind] at h
      cases har : addRef
          { s with blobs := s.blobs ++ [(s.nextOid, narInfoToString ni)],
                   nextOid := s.nextOid + 1 }
          (narinfoRef sp.hash) s.nextOid with
      | error e => rw [har, error_bind] at h; exact absurd h (by simp)
      | ok s2 =>
          rw [har, ok_bind] at h
          injection h with h
          subst h
          obtain ⟨hnone, hrefs, hcm, hbl, htr, hno⟩ := addRef_ok har
          exact ⟨rfl, hnone, by rw [hrefs], hcm, by rw [hbl],
            htr, by rw [hno]⟩

theorem tryAddPackage_ok {d : Daemon} {sp : NixPath} {s : GState}
    {r : NarInfo × Nat × GState} (h : tryAddPackage d sp s = .ok r) :
    ∃ pi, lookupPath d sp.path = some pi ∧
      mkNarInfo sp (natToDec s.nextOid) pi = .ok r.1 ∧
      r.2.1 = s.nextOid ∧
      findRefS s (narinfoRef sp.hash) = none ∧
      r.2.2.refs = s.refs ++ [(narinfoRef sp.hash, s.nextOid + 1)] ∧
      r.2.2.commits = s.commits ∧
      r.2.2.blobs = s.blobs ++ [(s.nextOid + 1, narInfoToString r.1)] ∧
      r.2.2.trees = s.trees ++ [s.nextOid] ∧
      r.2.2.nextOid = s.nextOid + 2 := by
  simp only [tryAddPackage] at h
  cases hlp : lookupPath d sp.path with
  | none =>
      simp only [hlp] at h
      exact absurd h (by simp)
  | some pi =>
      simp only [hlp] at h
      cases han : addNarinfo sp (natToDec s.nextOid) pi
          { s with trees := s.trees ++ [s.nextOid],
                   nextOid := s.nextOid + 1 } with
      | error e => rw [han, error_bind] at h; exact absurd h (by simp)
      | ok r0 =>
          rw [han, ok_bind] at h
          injection h with h
          subst h
          obtain ⟨hmk, hnone, hrefs, hcm, hbl, htr, hno⟩ := addNarinfo_ok han
          exact ⟨pi, rfl, hmk, rfl, hnone, by rw [hrefs], hcm,
            by rw [hbl], by rw [htr], by rw [hno]⟩

theorem stepOK_refl (s : GState) : stepOK s s :=
  ⟨grows_refl s, fun r hr => Or.inl hr, id, id, fun _ h => h⟩

theorem stepOK_trans {s t u : GState} (h1 : stepOK s t) (h2 : stepOK t u) :
    stepOK s u := by
  obtain ⟨g1, sh1, ob1, pi1, c41⟩ := h1
  obtain ⟨g2, sh2, ob2, pi2, c42⟩ := h2
  refine ⟨grows_trans g1 g2, ?_, fun ho => ob2 (ob1 ho),
    fun hp => pi2 (pi1 hp), fun ho hc => c42 (ob1 ho) (c41 ho hc)⟩
  intro r hr
  rcases sh2 r hr with hmem | hshape
  · rcases sh1 r hmem with hmem' | hshape'
    · exact Or.inl hmem'
    · exact Or.inr hshape'
  · exact Or.inr hshape

theorem C4inv_snoc_nonresult {s s' : GState} {nm : List Char} {o : Nat}
    (hg : grows s s') (hrefs : s'.refs = s.refs ++ [(nm, o)])
    (hnm : ∀ h, nm ≠ resultRef h) (hc : C4inv s) : C4inv s' := by
  intro h c hf
  rw [findRefS, hrefs, lookupA_snoc_ne _ _ _ _ (hnm h)] at hf
  exact C4prop_mono hg (hc h c hf)

theorem C4inv_refs_eq {s s' : GState} (hg : grows s s')
    (hrefs : s'.refs = s.refs) (hc : C4inv s) : C4inv s' := by
  intro h c hf
  rw [findRefS, hrefs] at hf
  exact C4prop_mono hg (hc h c hf)

theorem tryAddPackage_stepOK {d : Daemon} {sp : NixPath} {s : GState}
    {r : NarInfo × Nat × GState} (h : tryAddPackage d sp s = .ok r) :
    stepOK s r.2.2 := by
  obtain ⟨pi, _, _, _, hnone, hrefs, hcm, hbl, htr, hno⟩ := tryAddPackage_ok h
  have hg : grows s r.2.2 :=
    ⟨⟨_, hrefs⟩, ⟨[], by rw [hcm, List.append_nil]⟩, ⟨_, hbl⟩, ⟨_, htr⟩,
      by rw [hno]; omega⟩
  refine ⟨hg, ?_, ?_, ?_, ?_⟩
  · intro x hx
    rw [hrefs] at hx
    rcases List.mem_append.mp hx with hx | hx
    · exact Or.inl hx
    · rcases List.mem_singleton.mp hx with rfl
      exact Or.inr (Or.inr ⟨sp.hash, rfl⟩)
  · intro hob
    obtain ⟨o1, o2, o3, o4⟩ := hob
    refine ⟨?_, ?_, ?_, ?_⟩
    · intro x hx
      rw [hrefs] at hx
      rw [hno]
      rcases List.mem_append.mp hx with hx | hx
      · exact lt_trans (o1 x hx) (by omega)
      · rcases List.mem_singleton.mp hx with rfl
        omega
    · intro x hx
      rw [hcm] at hx
      rw [hno]
      exact lt_trans (o2 x hx) (by omega)
    · intro x hx
      rw [hbl] at hx
      rw [hno]
      rcases List.mem_append.mp hx with hx | hx
      · exact lt_trans (o3 x hx) (by omega)
      · rcases List.mem_singleton.mp hx with rfl
        omega
    · intro x hx
      rw [htr] at hx
      rw [hno]
      rcases List.mem_append.mp hx with hx | hx
      · exact lt_trans (o4 x hx) (by omega)
      · rcases List.mem_singleton.mp hx with rfl
        omega
  · intro hp
    rw [hrefs]
    exact prefixInv_snoc_narinfo hp sp.hash _
  · intro hob hc
    exact C4inv_snoc_nonresult hg hrefs
      (fun h' he => resultRef_ne_narinfoRef h' sp.hash he.symm) hc

theorem doCommit_stepOK {s : GState} {tree : Nat} {parents : List Nat}
    {msg : List Char} {r : Nat × GState}
    (h : doCommit s tree parents msg = .ok r) : stepOK s r.2 := by
  obtain ⟨hco, _, _, hrefs, hcm, hbl, htr, hno⟩ := doCommit_ok h
  have hg : grows s r.2 :=
    ⟨⟨[], by rw [hrefs, List.append_nil]⟩, ⟨_, hcm⟩,
      ⟨[], by rw [hbl, List.append_nil]⟩, ⟨[], by rw [htr, List.append_nil]⟩,
      by rw [hno]; omega⟩
  refine ⟨hg, ?_, ?_, ?_, ?_⟩
  · intro x hx
    rw [hrefs] at hx
    exact Or.inl hx
  · intro hob
    obtain ⟨o1, o2, o3, o4⟩ := hob
    refine ⟨?_, ?_, ?_, ?_⟩
    · intro x hx
      rw [hrefs] at hx
      rw [hno]
      exact lt_trans (o1 x hx) (by omega)
    · intro x hx
      rw [hcm] at hx
      rw [hno]
      rcases List.mem_append.mp hx with hx | hx
      · exact lt_trans (o2 x hx) (by omega)
      · rcases List.mem_singleton.mp hx with rfl
        omega
    · intro x hx
      rw [hbl] at hx
      rw [hno]
      exact lt_trans (o3 x hx) (by omega)
    · intro x hx
      rw [htr] at hx
      rw [hno]
      exact lt_trans (o4 x hx) (by omega)
  · intro hp
    rw [hrefs]
    exact hp
  · intro hob hc
    exact C4inv_refs_eq hg hrefs hc

theorem addDepsGo_main
    (step : NixPath → Nat → GState → Except String (Nat × Nat × GState))
    (hstep : ∀ sp cnt s r, step sp cnt s = .ok r →
      stepOK s r.2.2 ∧ findRefS r.2.2 (resultRef sp.hash) = some r.1) :
    ∀ (deps : List NixPath) (cnt : Nat) (s : GState)
      (r : List Nat × Nat × GState),
      addDepsGo step deps cnt s = .ok r →
      stepOK s r.2.2 ∧
      List.Forall₂
        (fun dep oid => findRefS r.2.2 (resultRef dep.hash) = some oid)
        deps r.1 := by
  intro deps
  induction deps with
  | nil =>
      intro cnt s r h
      simp only [addDepsGo] at h
      injection h with h
      subst h
      exact ⟨stepOK_refl s, List.Forall₂.nil⟩
  | cons dep rest ih =>
      intro cnt s r h
      simp only [addDepsGo] at h
      cases h1 : step dep cnt s with
      | error e => rw [h1, error_bind] at h; exact absurd h (by simp)
      | ok r1 =>
          rw [h1, ok_bind] at h
          cases h2 : addDepsGo step rest cnt r1.2.2 with
          | error e => rw [h2, error_bind] at h; exact absurd h (by simp)
          | ok r2 =>
              rw [h2, ok_bind] at h
              injection h with h
              subst h
              obtain ⟨hs1, hf1⟩ := hstep dep cnt s r1 h1
              obtain ⟨hs2, hf2⟩ := ih cnt r1.2.2 r2 h2
              exact ⟨stepOK_trans hs1 hs2,
                List.Forall₂.cons (findRefS_mono hs2.1 hf1) hf2⟩

/-- Master invariant theorem: every successful `_add_closure` call leaves
a state related to its input by `stepOK`, and its returned oid is the
target of the package's result ref in that state. -/
theorem addClosureF_main (d : Daemon) :
    ∀ (f : Nat) (sp : NixPath) (cnt : Nat) (s : GState)
      (r : Nat × Nat × GState),
      addClosureF d f sp cnt s = .ok r →
      stepOK s r.2.2 ∧ findRefS r.2.2 (resultRef sp.hash) = some r.1 := by
  intro f
  induction f with
  | zero =>
      intro sp cnt s r h
      exact absurd h (by simp [addClosureF])
  | succ f ih =>
      intro sp cnt s r h
      simp only [addClosureF, addClosureBody] at h
      by_cases hcnt : cnt = 100
      · rw [if_pos hcnt] at h
        exact absurd h (by simp)
      · rw [if_neg hcnt] at h
        cases hfr : findRefS s (resultRef sp.hash) with
        | some oid =>
            simp only [hfr] at h
            injection h with h
            subst h
            exact ⟨stepOK_refl s, hfr⟩
        | none =>
            simp only [hfr] at h
            cases h1 : tryAddPackage d sp s with
            | error e => rw [h1, error_bind] at h; exact absurd h (by simp)
            | ok r1 =>
                rw [h1, ok_bind] at h
                cases h2 : addDepsGo (addClosureF d f) (narDeps r1.1)
                    (cnt + 1) r1.2.2 with
                | error e => rw [h2, error_bind] at h; exact absurd h (by simp)
                | ok r2 =>
                    rw [h2, ok_bind] at h
                    cases h3 : doCommit r2.2.2 r1.2.1 r2.1 sp.name with
                    | error e =>
                        rw [h3, error_bind] at h
                        exact absurd h (by simp)
                    | ok r3 =>
                        rw [h3, ok_bind] at h
                        cases h4 : addRef r3.2 (resultRef sp.hash) r3.1 with
                        | error e =>
                            rw [h4, error_bind] at h
                            exact absurd h (by simp)
                        | ok s4 =>
                            rw [h4, ok_bind] at h
                            injection h with h
                            subst h
                            obtain ⟨pi, hpi, hmk, htid, hnarNone, e1, e2, e3,
                              e4, e5⟩ := tryAddPackage_ok h1
                            have hAB : stepOK s r1.2.2 := tryAddPackage_stepOK h1
                            obtain ⟨hBC, hdeps⟩ := addDepsGo_main _
                              (fun sp' cnt' s' r' h' => ih sp' cnt' s' r' h')
                              (narDeps r1.1) (cnt + 1) r1.2.2 r2 h2
                            have hCD : stepOK r2.2.2 r3.2 := doCommit_stepOK h3
                            obtain ⟨hc3, htree, hpar, f1, f2, f3, f4, f5⟩ :=
                              doCommit_ok h3
                            obtain ⟨hresNone, g1, g2, g3, g4, g5⟩ := addRef_ok h4
                            have hSD : stepOK s r3.2 :=
                              stepOK_trans (stepOK_trans hAB hBC) hCD
                            have hgDS4 : grows r3.2 s4 :=
                              ⟨⟨_, g1⟩, ⟨[], by rw [g2, List.append_nil]⟩,
                               ⟨[], by rw [g3, List.append_nil]⟩,
                               ⟨[], by rw [g4, List.append_nil]⟩, by rw [g5]⟩
                            have hnarB : findRefS r1.2.2 (narinfoRef sp.hash)
                                = some (s.nextOid + 1) := by
                              rw [findRefS, e1]
                              exact lookupA_snoc_self _ _ _ hnarNone
                            have hnarD : findRefS r3.2 (narinfoRef sp.hash)
                                = some (s.nextOid + 1) :=
                              findRefS_mono hCD.1 (findRefS_mono hBC.1 hnarB)
                            have hfinal : findRefS s4 (resultRef sp.hash)
                                = some r3.1 := by
                              rw [findRefS, g1]
                              exact lookupA_snoc_self _ _ _ hresNone
                            refine ⟨⟨grows_trans hSD.1 hgDS4, ?_, ?_, ?_, ?_⟩,
                              hfinal⟩
                            · intro x hx
                              rw [g1] at hx
                              rcases List.mem_append.mp hx with hx | hx
                              · exact hSD.2.1 x hx
                              · rcases List.mem_singleton.mp hx with rfl
                                exact Or.inr (Or.inl ⟨sp.hash, rfl⟩)
                            · intro hob
                              have hobD := hSD.2.2.1 hob
                              obtain ⟨o1, o2, o3, o4⟩ := hobD
                              refine ⟨?_, ?_, ?_, ?_⟩
                              · intro x hx
                                rw [g1] at hx
                                rw [g5]
                                rcases List.mem_append.mp hx with hx | hx
                                · exact o1 x hx
                                · rcases List.mem_singleton.mp hx with rfl
                                  rw [f5]
                                  omega
                              · intro x hx
                                rw [g2] at hx
                                rw [g5]
                                exact o2 x hx
                              · intro x hx
                                rw [g3] at hx
                                rw [g5]
                                exact o3 x hx
                              · intro x hx
                                rw [g4] at hx
                                rw [g5]
                                exact o4 x hx
                            · intro hp
                              have hpD := hSD.2.2.2.1 hp
                              rw [g1]
                              refine prefixInv_snoc_result hpD sp.hash r3.1 ?_
                              rw [show lookupA r3.2.refs (narinfoRef sp.hash)
                                = some (s.nextOid + 1) from hnarD]
                              rfl
                            · intro hob hc
                              have hobB := hAB.2.2.1 hob
                              have hobC := hBC.2.2.1 hobB
                              have hcD := hSD.2.2.2.2 hob hc
                              intro h' c' hf'
                              rw [findRefS, g1] at hf'
                              by_cases hne : resultRef sp.hash = resultRef h'
                              · have hh : h' = sp.hash :=
                                  (resultRef_inj _ _ hne).symm
                                subst hh
                                rw [lookupA_snoc_self _ _ _ hresNone] at hf'
                                injection hf' with hf'
                                subst hf'
                                refine ⟨r1.1, s.nextOid + 1,
                                  ⟨r1.2.1, r2.1, sp.name⟩,
                                  findRefS_mono hgDS4 hnarD, ?_, ?_, ?_⟩
                                · have hblobB : lookupBlob r1.2.2
                                      (s.nextOid + 1)
                                      = some (narInfoToString r1.1) := by
                                    rw [lookupBlob, e3]
                                    exact lookupA_snoc_self _ _ _
                                      (lookupA_bound_none s.blobs
                                        (s.nextOid + 1)
                                        (fun x hx =>
                                          lt_trans (hob.2.2.1 x hx) (by omega)))
                                  exact lookupBlob_mono
                                    (grows_trans hBC.1
                                      (grows_trans hCD.1 hgDS4)) hblobB
                                · have hcmD : lookupCommit r3.2 r3.1
                                      = some ⟨r1.2.1, r2.1, sp.name⟩ := by
                                    rw [lookupCommit, f2, hc3]
                                    exact lookupA_snoc_self _ _ _
                                      (lookupA_bound_none r2.2.2.commits
                                        r2.2.2.nextOid
                                        (fun x hx => hobC.2.1 x hx))
                                  exact lookupCommit_mono hgDS4 hcmD
                                · exact hdeps.imp (fun _ _ hd =>
                                    findRefS_mono
                                      (grows_trans hCD.1 hgDS4) hd)
                              · rw [lookupA_snoc_ne _ _ _ _ hne] at hf'
                                exact C4prop_mono hgDS4 (hcD h' c' hf')

/-! ### Claim theorems: ingest -/


/-- C3: ingest is idempotent.  (1) Whenever the result ref of a package
already resolves and the depth guard passes, `_add_closure` returns that
ref's commit with `added_count = 0` and leaves the state untouched — the
short-circuit is the first check after the depth guard, before any daemon
or repository access.  (2) Hence a second `add_closure` of an ingested
path returns the first run's commit with `added_count = 0` and no writes.
(3) The depth guard itself fires before the short-circuit. -/
theorem gachix_C3 :
    (∀ (d : Daemon) (f : Nat) (sp : NixPath) (cnt : Nat) (s : GState)
      (oid : Nat), cnt ≠ 100 → findRefS s (resultRef sp.hash) = some oid →
      addClosureF d (f + 1) sp cnt s = .ok (oid, 0, s)) ∧
    (∀ (d : Daemon) (sp : NixPath) (s : GState) (r : Nat × Nat × GState),
      addClosure d sp s = .ok r →
      addClosure d sp r.2.2 = .ok (r.1, 0, r.2.2)) ∧
    (∀ (d : Daemon) (f : Nat) (sp : NixPath) (s : GState),
      addClosureF d (f + 1) sp 100 s
        = .error "Dependency Depth Limit exceeded") := by
  have part1 : ∀ (d : Daemon) (f : Nat) (sp : NixPath) (cnt : Nat)
      (s : GState) (oid : Nat), cnt ≠ 100 →
      findRefS s (resultRef sp.hash) = some oid →
      addClosureF d (f + 1) sp cnt s = .ok (oid, 0, s) := by
    intro d f sp cnt s oid hcnt hfind
    simp only [addClosureF, addClosureBody]
    rw [if_neg hcnt]
    simp only [hfind]
  refine ⟨part1, ?_, ?_⟩
  · intro d sp s r h
    obtain ⟨_, hf⟩ := addClosureF_main d 101 sp 0 s r h
    exact part1 d 100 sp 0 r.2.2 r.1 (by decide) hf
  · intro d f sp s
    simp only [addClosureF, addClosureBody]
    rw [if_pos trivial]

set_option maxRecDepth 40000 in
/-- C3 witness: ingesting pkga's closure twice; the second run returns
the first run's commit id, adds 0 packages, and leaves the state
unchanged. -/
theorem gachix_C3_witness :
    addClosure d0 spA st0 = .ok exRun ∧
    addClosure d0 spA exS = .ok (exRun.1, 0, exS) :=
  ⟨by rfl, gachix_C3.2.1 d0 spA st0 exRun (by rfl)⟩

/-- C4: commit parents encode the dependency DAG.  Starting from a state
with fresh oids where every resolving result ref already satisfies the
parents-encode-dependencies property, any successful `_add_closure` run
preserves it — so in the final state every package H whose result ref
resolves has a stored narinfo blob, and the parents of H's commit are
exactly the result commits of the self-excluded references of that
narinfo, in narinfo order (`C4prop`); moreover the run's returned commit
is the one its package's result ref points to. -/
theorem gachix_C4 (d : Daemon) (f : Nat) (sp : NixPath) (cnt : Nat)
    (s : GState) (r : Nat × Nat × GState)
    (hob : oidBound s) (hc4 : C4inv s)
    (h : addClosureF d f sp cnt s = .ok r) :
    C4inv r.2.2 ∧ findRefS r.2.2 (resultRef sp.hash) = some r.1 := by
  obtain ⟨hs, hf⟩ := addClosureF_main d f sp cnt s r h
  exact ⟨hs.2.2.2.2 hob hc4, hf⟩

set_option maxRecDepth 40000 in
/-- C4 witness: in the concrete run, pkga's stored commit has as parents
exactly the result commit of its one dependency pkgb. -/
theorem gachix_C4_witness : C4prop exS hashA exRun.1 := by
  have hob : oidBound st0 :=
    ⟨fun x hx => absurd hx (List.not_mem_nil x),
     fun x hx => absurd hx (List.not_mem_nil x),
     fun x hx => absurd hx (List.not_mem_nil x),
     fun x hx => absurd hx (List.not_mem_nil x)⟩
  have hc4 : C4inv st0 := by
    intro h c hf
    simp [findRefS, st0, lookupA] at hf
  have h := gachix_C4 d0 101 spA 0 st0 exRun hob hc4 (by rfl)
  exact h.1 hashA exRun.1 h.2

/-- C5 (amended): a successful ingest creates only result and narinfo
references — every reference of the final state was already present or is
named `refs/{h}/result` or `refs/{h}/narinfo` for some package hash `h`;
no dependency symbolic refs `refs/{h}/deps/{d}/...` are ever created.  The
dependency graph is recorded in commit parents instead (C4). -/
theorem gachix_C5 (d : Daemon) (f : Nat) (sp : NixPath) (cnt : Nat)
    (s : GState) (r : Nat × Nat × GState)
    (h : addClosureF d f sp cnt s = .ok r) :
    ∀ x ∈ r.2.2.refs, x ∈ s.refs ∨ (∃ h0, x.1 = resultRef h0) ∨
      (∃ h0, x.1 = narinfoRef h0) :=
  fun x hx => (addClosureF_main d f sp cnt s r h).1.2.1 x hx

set_option maxRecDepth 40000 in
/-- C5 counterexample: after a completed ingest of pkga (which depends on
pkgb, as its stored narinfo records), the symbolic references
`refs/{A}/deps/{B}/result` and `refs/{A}/deps/{B}/narinfo` the claim
requires do not exist, even though pkgb's own refs do. -/
theorem gachix_C5_counterexample :
    addClosure d0 spA st0 = .ok exRun ∧
    findRefS exS (narinfoRef hashA) = some 1 ∧
    lookupBlob exS 1 = some (narInfoToString niA) ∧
    spB ∈ narDeps niA ∧
    findRefS exS (resultRef hashB) = some 4 ∧
    findRefS exS (depsResultRef hashA hashB) = none ∧
    findRefS exS (depsNarinfoRef hashA hashB) = none := by
  refine ⟨by rfl, by rfl, by rfl, by decide, by rfl, by rfl, by rfl⟩

set_option maxRecDepth 40000 in
/-- C5 witness: the amended theorem evaluated on the concrete run, at the
reference the run created for pkga's narinfo. -/
theorem gachix_C5_witness :
    (narinfoRef hashA, (1 : Nat)) ∈ st0.refs ∨
    (∃ h0, (narinfoRef hashA, (1 : Nat)).1 = resultRef h0) ∨
    (∃ h0, (narinfoRef hashA, (1 : Nat)).1 = narinfoRef h0) :=
  gachix_C5 d0 101 spA 0 st0 exRun (by rfl) (narinfoRef hashA, 1) (by decide)

/-- C6: no orphan result ref.  If every initial segment of the starting
reference table satisfies "result ref present → narinfo ref present",
then so does every initial segment of the final table of a successful
ingest.  Since the reference table is append-only and written in program
order, its initial segments are exactly the tables of the states an
ingest interrupted partway leaves behind: the narinfo ref of a package is
always written before its result ref. -/
theorem gachix_C6 (d : Daemon) (f : Nat) (sp : NixPath) (cnt : Nat)
    (s : GState) (r : Nat × Nat × GState)
    (hInv : prefixInv s.refs)
    (h : addClosureF d f sp cnt s = .ok r) :
    prefixInv r.2.2.refs :=
  (addClosureF_main d f sp cnt s r h).1.2.2.2.1 hInv

set_option maxRecDepth 40000 in
/-- C6 witness: the invariant holds of every initial segment of the
reference table left by the concrete run. -/
theorem gachix_C6_witness : prefixInv exS.refs := by
  have hInv : prefixInv st0.refs := by
    intro p hp
    rw [List.prefix_nil.mp hp]
    intro h hs
    simp [lookupA] at hs
  exact gachix_C6 d0 101 spA 0 st0 exRun hInv (by rfl)

/-- C9: `list_entries` passes the uninterpolated literal pattern
`{PACKGAGE_PREFIX_REF}/*` to the reference glob, whose first character
`\x7b` matches no reference name created by the store (they all start
with `refs/`), so the listing is empty on every such store — including
non-empty ones — contradicting the claimed completeness. -/
theorem gachix_C9 (s : GState)
    (h : ∀ x ∈ s.refs, x.1.head? = some 'r') :
    listEntries s = [] := by
  simp only [listEntries, listReferences]
  have hfilter : s.refs.filter (fun r => globMatch PACKAGE_GLOB r.1) = [] := by
    rw [List.filter_eq_nil_iff]
    intro a ha
    have hh := h a ha
    cases hxl : a.1 with
    | nil => rw [hxl] at hh; simp at hh
    | cons c cs =>
        rw [hxl] at hh
        simp only [List.head?] at hh
        injection hh with hh
        subst hh
        simp [show globMatch PACKAGE_GLOB ('r' :: cs) = false from rfl]
  rw [hfilter]
  rfl

set_option maxRecDepth 40000 in
/-- C9 witness: the concrete ingested store is non-empty (pkga's entry
exists) yet `list_entries` returns the empty list. -/
theorem gachix_C9_witness :
    listEntries exS = [] ∧ exS.refs ≠ [] ∧ entryExists exS hashA = true :=
  ⟨gachix_C9 exS (by decide), by decide, by rfl⟩

end Gachix
